import Mathlib

/-!
Verification of the from-scratch data structures of a Python study
repository: singly linked list, stack, binary search tree, binary
min-heap and union-find.  Each Python class/function is embedded as a
pure Lean function (mutation becomes explicit state passing, exceptions
become `Except`/`Option`), and the behavioural claims of the spec are
proved or refuted about those embeddings.  Values stored in the
containers are modelled as `Int` (the Python sources exercise them with
integers).
-/

namespace DSNotes

/-! ### Singly linked list (src/data_structures/06_linked_lists.py)

`reverse_list` and `to_list` act on a chain of `ListNode`s; for the
value-sequence claims the chain is embedded as the list of its values.
`reverse_list`'s loop (`prev`/`head` pointers) becomes the accumulator
recursion `reverseLoop`. -/

/-- The loop of `reverse_list`: `prev` is the already reversed prefix,
the argument list is the remaining chain from `head`. -/
def reverseLoop : List Int → List Int → List Int
  | prev, [] => prev
  | prev, v :: rest => reverseLoop (v :: prev) rest

/-- `reverse_list(head)`: in-place pointer reversal, embedded on the
value sequence. -/
def reverse_list (l : List Int) : List Int := reverseLoop [] l

/-- `to_list(head)`: walk the chain collecting values. -/
def to_list : List Int → List Int
  | [] => []
  | v :: rest => v :: to_list rest

/-! ### The `LinkedList` class with head and tail pointers

`delete_val` compares node objects (`cur == self.tail`), so object
identity matters; the embedding therefore keeps an explicit node store
(arena): a node is an index into `store`, `next` pointers are
`Option Nat` indices, and `ListNode(val, next)` allocation appends to
the store.  `head`/`tail` of the class are `Option Nat` pointers. -/

structure LLNode where
  val : Int
  next : Option Nat
deriving DecidableEq, Repr

/-- Read a node from the store (all reads in reachable executions are
in range; out of range yields an inert dummy node). -/
def nodeAt (store : List LLNode) (i : Nat) : LLNode :=
  store.getD i ⟨0, none⟩

/-- Overwrite the `next` field of node `i`. -/
def setNext (store : List LLNode) (i : Nat) (nxt : Option Nat) : List LLNode :=
  store.set i ⟨(nodeAt store i).val, nxt⟩

/-- The `LinkedList` object: node arena plus `head`/`tail` pointers. -/
structure LinkedList where
  store : List LLNode
  head : Option Nat
  tail : Option Nat
deriving DecidableEq, Repr

/-- `LinkedList()` constructor: `head = tail = None`. -/
def LinkedList.empty : LinkedList := ⟨[], none, none⟩

/-- `insert_end(val)`: allocate a node; if there is no tail make it both
head and tail, otherwise link it after the tail and move the tail. -/
def LinkedList.insert_end (s : LinkedList) (v : Int) : LinkedList :=
  let idx := s.store.length
  let store₁ := s.store ++ [⟨v, none⟩]
  match s.tail with
  | none => ⟨store₁, some idx, some idx⟩
  | some t => ⟨setNext store₁ t (some idx), s.head, some idx⟩

/-- `insert_front(val)`: allocate a node; if there is no head make it
both head and tail, otherwise point it at the old head. -/
def LinkedList.insert_front (s : LinkedList) (v : Int) : LinkedList :=
  let idx := s.store.length
  match s.head with
  | none => ⟨s.store ++ [⟨v, none⟩], some idx, some idx⟩
  | some h => ⟨s.store ++ [⟨v, some h⟩], some idx, s.tail⟩

/-- The `while cur:` loop of `delete_val`: on a value match, splice
(`prev.next = cur.next`), move `tail` to `prev` when `cur` is the tail
object, and stop; otherwise advance both pointers.  `fuel` bounds the
walk (the chains of reachable lists are acyclic and shorter than the
store). -/
def deleteLoop (v : Int) : Nat → List LLNode → Nat → Option Nat → Option Nat →
    List LLNode × Option Nat
  | _, store, _, none, tail => (store, tail)
  | 0, store, _, some _, tail => (store, tail)
  | fuel + 1, store, prev, some c, tail =>
    let cn := nodeAt store c
    if cn.val = v then
      (setNext store prev cn.next, if some c = tail then some prev else tail)
    else
      deleteLoop v fuel store c cn.next tail

/-- `delete_val(val)`: allocate the sentinel `dummy = ListNode(0, self.head)`,
run the deletion loop starting from `prev = dummy`, `cur = self.head`,
then re-read `self.head = dummy.next`. -/
def LinkedList.delete_val (s : LinkedList) (v : Int) : LinkedList :=
  let d := s.store.length
  let store₁ := s.store ++ [⟨0, s.head⟩]
  let (store₂, tail₂) := deleteLoop v store₁.length store₁ d s.head s.tail
  ⟨store₂, (nodeAt store₂ d).next, tail₂⟩

/-- The `while cur:` loop of `find(val)` (`fuel`-bounded walk). -/
def findLoop (v : Int) : Nat → List LLNode → Option Nat → Bool
  | _, _, none => false
  | 0, _, some _ => false
  | fuel + 1, store, some c =>
    let cn := nodeAt store c
    if cn.val = v then true else findLoop v fuel store cn.next

/-- `find(val)`: walk from `head` looking for the value. -/
def LinkedList.find (s : LinkedList) (v : Int) : Bool :=
  findLoop v s.store.length s.store s.head

/-! ### Stack (src/data_structures/04_stacks.py)

`self.data` is a Python list used from the right end.  `pop` calls
`list.pop()`, which raises `IndexError` on an empty list (modelled as
`Except.error`); `peek` returns `self.data[-1] if self.data else None`
(modelled as `Option`). -/

/-- `Stack.push(val)`: append at the right end. -/
def Stack.push (data : List Int) (v : Int) : List Int := data ++ [v]

/-- `Stack.pop()`: `self.data.pop()` — remove and return the last
element, `IndexError` when empty. -/
def Stack.pop (data : List Int) : Except Unit (Int × List Int) :=
  if h : data = [] then .error ()
  else .ok (data.getLast h, data.dropLast)

/-- `Stack.peek()`: `self.data[-1] if self.data else None`. -/
def Stack.peek (data : List Int) : Option Int :=
  if h : data = [] then none else some (data.getLast h)

/-! ### Binary search tree (src/data_structures/07_binary_trees.py)

`TreeNode(val, left, right)`; `None` becomes the `leaf` constructor. -/

inductive Tree where
  | leaf
  | node (val : Int) (left right : Tree)
deriving DecidableEq, Repr

/-- `inorder(root)` as the list of printed values: left, root, right. -/
def Tree.toList : Tree → List Int
  | .leaf => []
  | .node v l r => l.toList ++ v :: r.toList

/-- `search_bst(root, target)`: equality first, then descend by
comparison. -/
def search_bst : Tree → Int → Bool
  | .leaf, _ => false
  | .node v l r, target =>
    if v = target then true
    else if target < v then search_bst l target else search_bst r target

/-- `insert_bst(root, val)`: descend left on `val < root.val`,
otherwise right (ties go right); a new node replaces an empty spot;
returns the (possibly new) subtree root. -/
def insert_bst : Tree → Int → Tree
  | .leaf, v => .node v .leaf .leaf
  | .node x l r, v =>
    if v < x then .node x (insert_bst l v) r else .node x l (insert_bst r v)

/-- `temp = root.right; while temp.left: temp = temp.left` — value of
the leftmost node (the stated in-order successor source); the `leaf`
equation is junk, the callers guard on a nonempty tree. -/
def leftmostVal : Tree → Int
  | .leaf => 0
  | .node x l _ => match l with | .leaf => x | .node .. => leftmostVal l

/-- `delete_node(root, key)`: descend by comparison; on the match, an
absent child splices the other one in, and with two children the value
is replaced by the right subtree's leftmost value, which is then
deleted from the right subtree. -/
def delete_node : Tree → Int → Tree
  | .leaf, _ => .leaf
  | .node x l r, k =>
    if k < x then .node x (delete_node l k) r
    else if x < k then .node x l (delete_node r k)
    else
      match l, r with
      | .leaf, _ => r
      | .node .., .leaf => l
      | .node .., .node .. =>
        let m := leftmostVal r
        .node m l (delete_node r m)

/-- Fold `insert_bst` over a sequence of values starting from the empty
tree. -/
def buildBST (vs : List Int) : Tree := vs.foldl insert_bst .leaf

/-- The BST ordering invariant, as an executable check: at every node
all values in the left subtree are strictly smaller and all values in
the right subtree are greater or equal. -/
def Tree.isBST : Tree → Bool
  | .leaf => true
  | .node x l r =>
    l.toList.all (fun y => y < x) && r.toList.all (fun y => x ≤ y) &&
      l.isBST && r.isBST

/-! ### Binary min-heap (src/data_structures/08_heaps.py)

The `MinHeap` class stores the heap as a Python list; the embedding
uses `List Int` with index access `hGet` (all accesses in reachable
executions are in range). -/

/-- `self.heap[i]` (in-range in all reachable executions). -/
def hGet (l : List Int) (i : Nat) : Int := l.getD i 0

/-- `self.heap[i], self.heap[j] = self.heap[j], self.heap[i]`. -/
def hSwap (l : List Int) (i j : Nat) : List Int :=
  (l.set i (hGet l j)).set j (hGet l i)

/-- `MinHeap._bubble_up(i)`: swap with the parent while strictly
smaller than it. -/
def bubbleUp (l : List Int) (i : Nat) : List Int :=
  if h : 0 < i then
    let parent := (i - 1) / 2
    if hGet l i < hGet l parent then bubbleUp (hSwap l i parent) parent else l
  else l
termination_by i
decreasing_by
  exact Nat.lt_of_le_of_lt (Nat.div_le_self _ _) (Nat.sub_lt h Nat.one_pos)

/-- The `smallest` computation of one `_bubble_down` iteration:
`smallest = i`, replaced by `left` if that is smaller, then by `right`
if that is in range and smaller still. -/
def heapSmallest (l : List Int) (i : Nat) : Nat :=
  let n := l.length
  let left := 2 * i + 1
  let right := 2 * i + 2
  let s₁ := if hGet l left < hGet l i then left else i
  if right < n then (if hGet l right < hGet l s₁ then right else s₁) else s₁

/-- `MinHeap._bubble_down(i)`: while a left child exists, pick the
smallest of node, left child, right child; stop if it is the node,
else swap down and continue from the child.  `fuel` bounds the walk
(the index strictly increases and stays below the length, so
`l.length` steps always suffice). -/
def bubbleDownF : Nat → List Int → Nat → List Int
  | 0, l, _ => l
  | fuel + 1, l, i =>
    if 2 * i + 1 < l.length then
      let s := heapSmallest l i
      if s = i then l else bubbleDownF fuel (hSwap l i s) s
    else l

/-- `_bubble_down(i)` with the always-sufficient fuel. -/
def bubbleDown (l : List Int) (i : Nat) : List Int := bubbleDownF l.length l i

/-- `MinHeap.push(val)`: append, then bubble up from the last index. -/
def MinHeap.push (l : List Int) (v : Int) : List Int :=
  bubbleUp (l ++ [v]) l.length

/-- `MinHeap.pop()`: a single element is just popped; otherwise save
the root, move the popped last element to the root and bubble down.
The empty case hits `self.heap[0]` and raises `IndexError`. -/
def MinHeap.pop (l : List Int) : Except Unit (Int × List Int) :=
  if l.length = 1 then
    .ok (hGet l 0, [])
  else
    match l with
    | [] => .error ()
    | _ :: _ =>
      .ok (hGet l 0, bubbleDown (l.dropLast.set 0 (hGet l (l.length - 1))) 0)

/-- Push a whole sequence of values into a heap (the "pushed into a
MinHeap" side of the claim). -/
def MinHeap.pushAll (vs : List Int) : List Int := vs.foldl MinHeap.push []

/-- `fuel` successive `pop()` calls, collecting the returned values and
stopping at an empty heap. -/
def popAllF : Nat → List Int → List Int
  | 0, _ => []
  | fuel + 1, l =>
    match MinHeap.pop l with
    | .error _ => []
    | .ok (a, l') => a :: popAllF fuel l'

/-- Pop until the heap is empty (each successful pop removes exactly
one element, so `l.length` pops drain the heap). -/
def popAll (l : List Int) : List Int := popAllF l.length l

/-- Modelled from the spec: `heapq.heapify` (Python standard library,
not part of this repository) "builds heap invariant from an arbitrary
initial sequence … using bottom-up sift-down": sift down each index
from `n // 2 - 1` down to `0`, reusing the source's sift-down move. -/
def heapifyLoop : Nat → List Int → List Int
  | 0, l => l
  | k + 1, l => heapifyLoop k (bubbleDown l k)

/-- Modelled from the spec: `heapq.heapify(nums)` converts the list to
a min-heap in place by bottom-up sift-down. -/
def heapify (l : List Int) : List Int := heapifyLoop (l.length / 2) l

/-- `heap_sort(arr)`: `heapify(arr)` then `len(arr)` successive
`heappop`s (the spec describes `heappop` exactly as `MinHeap.pop`'s
nonempty path: save root, move last element to root, sift down). -/
def heap_sort (arr : List Int) : List Int := popAllF arr.length (heapify arr)

/-! ### Union-Find (src/algorithms/09_misc_algos.py)

`UnionFind(n)` holds `parent` and `rank` as Python lists over element
ids `0..n-1`.  All indexing in reachable executions is in range; reads
out of range default to the id itself (an isolated root), which never
matters for ids below `n`. -/

/-- `self.parent[x]` (in range whenever `x < len(parent)`). -/
def pget (p : List Nat) (x : Nat) : Nat := p.getD x x

/-- `self.rank[x]`. -/
def rget (r : List Nat) (x : Nat) : Nat := r.getD x 0

/-- The union-find object. -/
structure UF where
  parent : List Nat
  rank : List Nat
deriving DecidableEq, Repr

/-- `UnionFind(n)`: `parent = list(range(n))`, `rank = [0] * n`. -/
def ufInit (n : Nat) : UF := ⟨List.range n, List.replicate n 0⟩

/-- `find(x)` with explicit fuel: if `parent[x] != x`, recursively find
the root of `parent[x]`, compress `parent[x]` to it, and return the new
`parent[x]`.  In every reachable state fuel `len(parent)` suffices. -/
def findAux : Nat → List Nat → Nat → Nat × List Nat
  | 0, p, x => (pget p x, p)
  | fuel + 1, p, x =>
    let px := pget p x
    if px = x then (x, p)
    else
      let rp := findAux fuel p px
      let p₂ := rp.2.set x rp.1
      (pget p₂ x, p₂)

/-- `find(x)` on the object, with the always-sufficient fuel. -/
def UF.find (u : UF) (x : Nat) : Nat × UF :=
  let rp := findAux u.parent.length u.parent x
  (rp.1, ⟨rp.2, u.rank⟩)

/-- `union(x, y)`: find both roots, report `False` when equal,
otherwise attach by rank (ties attach `py` under `px` and bump
`rank[px]`). -/
def UF.union (u : UF) (x y : Nat) : Bool × UF :=
  let fx := u.find x
  let fy := fx.2.find y
  let px := fx.1
  let py := fy.1
  let u₂ := fy.2
  if px = py then (false, u₂)
  else if rget u₂.rank px < rget u₂.rank py then
    (true, ⟨u₂.parent.set px py, u₂.rank⟩)
  else if rget u₂.rank py < rget u₂.rank px then
    (true, ⟨u₂.parent.set py px, u₂.rank⟩)
  else
    (true, ⟨u₂.parent.set py px, u₂.rank.set px (rget u₂.rank px + 1)⟩)

/-- `k` steps along the parent links. -/
def iterP (p : List Nat) (k x : Nat) : Nat := (pget p)^[k] x

/-- The root of `x`'s chain: in every reachable state the chain
stabilises within `len(parent)` steps. -/
def rootP (p : List Nat) (x : Nat) : Nat := iterP p p.length x

/-- Fold a sequence of `union` calls over a union-find object. -/
def applyUnions (ops : List (Nat × Nat)) (u : UF) : UF :=
  ops.foldl (fun u xy => (u.union xy.1 xy.2).2) u

/-- The states reachable from `UnionFind(n)` by `find` and `union`
calls on valid element ids. -/
inductive UFReach (n : Nat) : UF → Prop
  | init : UFReach n (ufInit n)
  | find {u} (x : Nat) : UFReach n u → x < n → UFReach n (u.find x).2
  | union {u} (x y : Nat) : UFReach n u → x < n → y < n →
      UFReach n (u.union x y).2

/-! ## Lemmas about the linked list embedding -/

theorem reverseLoop_eq (l : List Int) : ∀ prev, reverseLoop prev l = l.reverse ++ prev := by
  induction l with
  | nil => intro prev; simp [reverseLoop]
  | cons v rest ih => intro prev; simp [reverseLoop, ih]

theorem to_list_id (l : List Int) : to_list l = l := by
  induction l with
  | nil => rfl
  | cons v rest ih => simp [to_list, ih]

/-! ## Lemmas about the BST embedding -/

theorem isBST_node {x : Int} {l r : Tree} :
    Tree.isBST (.node x l r) = true ↔
      (∀ y ∈ l.toList, y < x) ∧ (∀ y ∈ r.toList, x ≤ y) ∧
        l.isBST = true ∧ r.isBST = true := by
  simp [Tree.isBST, List.all_eq_true, and_assoc]

theorem mem_toList_node {y x : Int} {l r : Tree} :
    y ∈ (Tree.node x l r).toList ↔ y ∈ l.toList ∨ y = x ∨ y ∈ r.toList := by
  simp [Tree.toList]

theorem toList_insert (t : Tree) (v : Int) :
    (insert_bst t v).toList.Perm (v :: t.toList) := by
  induction t with
  | leaf => simp [insert_bst, Tree.toList]
  | node x l r ihl ihr =>
    by_cases h : v < x
    · simpa [insert_bst, h, Tree.toList] using ihl.append_right (x :: r.toList)
    · have step : (insert_bst (.node x l r) v).toList.Perm
        (l.toList ++ x :: v :: r.toList) := by
        simpa [insert_bst, h, Tree.toList] using (ihr.cons x).append_left l.toList
      refine step.trans ?_
      have := @List.perm_middle Int v (l.toList ++ [x]) r.toList
      simpa [Tree.toList] using this

theorem mem_insert {y : Int} {t : Tree} {v : Int} :
    y ∈ (insert_bst t v).toList ↔ y = v ∨ y ∈ t.toList := by
  rw [(toList_insert t v).mem_iff]; simp

theorem isBST_insert {t : Tree} (h : t.isBST = true) (v : Int) :
    (insert_bst t v).isBST = true := by
  induction t with
  | leaf => simp [insert_bst, Tree.isBST, Tree.toList]
  | node x l r ihl ihr =>
    rcases isBST_node.mp h with ⟨hl, hr, bl, br⟩
    by_cases hv : v < x
    · simp only [insert_bst, if_pos hv]
      refine isBST_node.mpr ⟨?_, hr, ihl bl, br⟩
      intro y hy
      rcases mem_insert.mp hy with rfl | hy
      · exact hv
      · exact hl y hy
    · simp only [insert_bst, if_neg hv]
      refine isBST_node.mpr ⟨hl, ?_, bl, ihr br⟩
      intro y hy
      rcases mem_insert.mp hy with rfl | hy
      · exact le_of_not_lt hv
      · exact hr y hy

theorem sorted_toList {t : Tree} (h : t.isBST = true) :
    t.toList.Sorted (· ≤ ·) := by
  induction t with
  | leaf => simp [Tree.toList]
  | node x l r ihl ihr =>
    rcases isBST_node.mp h with ⟨hl, hr, bl, br⟩
    show List.Pairwise _ _
    simp only [Tree.toList]
    refine List.pairwise_append.mpr ⟨ihl bl, ?_, ?_⟩
    · exact List.pairwise_cons.mpr ⟨hr, ihr br⟩
    · intro a ha b hb
      rcases List.mem_cons.mp hb with rfl | hb
      · exact le_of_lt (hl a ha)
      · exact le_of_lt (lt_of_lt_of_le (hl a ha) (hr b hb))

theorem search_iff_mem {t : Tree} (h : t.isBST = true) {v : Int} :
    search_bst t v = true ↔ v ∈ t.toList := by
  induction t with
  | leaf => simp [search_bst, Tree.toList]
  | node x l r ihl ihr =>
    rcases isBST_node.mp h with ⟨hl, hr, bl, br⟩
    by_cases hx : x = v
    · subst hx
      simp [search_bst, mem_toList_node]
    · by_cases hv : v < x
      · rw [show search_bst (.node x l r) v = search_bst l v by
          simp [search_bst, hx, hv]]
        rw [ihl bl, mem_toList_node]
        constructor
        · exact fun hm => Or.inl hm
        · rintro (hm | rfl | hm)
          · exact hm
          · exact absurd rfl hx
          · exact absurd hv (not_lt.mpr (hr v hm))
      · rw [show search_bst (.node x l r) v = search_bst r v by
          simp [search_bst, hx, hv]]
        rw [ihr br, mem_toList_node]
        constructor
        · exact fun hm => Or.inr (Or.inr hm)
        · rintro (hm | rfl | hm)
          · exact absurd (hl v hm) hv
          · exact absurd rfl hx
          · exact hm

theorem toList_build (vs : List Int) : (buildBST vs).toList.Perm vs := by
  suffices h : ∀ (vs : List Int) (t : Tree),
      (vs.foldl insert_bst t).toList.Perm (t.toList ++ vs) by
    simpa [buildBST, Tree.toList] using h vs .leaf
  intro vs
  induction vs with
  | nil => intro t; simp
  | cons v rest ih =>
    intro t
    refine (ih (insert_bst t v)).trans ?_
    refine ((toList_insert t v).append_right rest).trans ?_
    simpa using (@List.perm_middle Int v t.toList rest).symm

theorem isBST_build (vs : List Int) : (buildBST vs).isBST = true := by
  suffices h : ∀ (vs : List Int) (t : Tree), t.isBST = true →
      (vs.foldl insert_bst t).isBST = true by
    exact h vs .leaf rfl
  intro vs
  induction vs with
  | nil => intro t ht; exact ht
  | cons v rest ih => intro t ht; exact ih _ (isBST_insert ht v)

theorem leftmost_head (t : Tree) (h : t ≠ .leaf) :
    ∃ rest, t.toList = leftmostVal t :: rest := by
  induction t with
  | leaf => exact absurd rfl h
  | node x l r ihl _ =>
    cases l with
    | leaf => exact ⟨r.toList, by simp [Tree.toList, leftmostVal]⟩
    | node y a b =>
      rcases ihl (by simp) with ⟨rest, hrest⟩
      refine ⟨rest ++ x :: r.toList, ?_⟩
      show (Tree.node y a b).toList ++ x :: r.toList =
        leftmostVal (Tree.node y a b) :: (rest ++ x :: r.toList)
      rw [hrest]; rfl

theorem leftmost_mem {t : Tree} (h : t ≠ .leaf) : leftmostVal t ∈ t.toList := by
  rcases leftmost_head t h with ⟨rest, hrest⟩
  simp [hrest]

theorem leftmost_le {t : Tree} (hb : t.isBST = true) (h : t ≠ .leaf) :
    ∀ y ∈ t.toList, leftmostVal t ≤ y := by
  rcases leftmost_head t h with ⟨rest, hrest⟩
  have hs := sorted_toList hb
  rw [hrest] at hs
  rcases List.sorted_cons.mp hs with ⟨hle, _⟩
  intro y hy
  rw [hrest] at hy
  rcases List.mem_cons.mp hy with rfl | hy
  · exact le_refl _
  · exact hle y hy

theorem delete_not_mem (t : Tree) (k : Int) (h : k ∉ t.toList) :
    delete_node t k = t := by
  induction t with
  | leaf => rfl
  | node x l r ihl ihr =>
    have hx : k ≠ x := fun hk => h (mem_toList_node.mpr (Or.inr (Or.inl hk)))
    have hkl : k ∉ l.toList := fun hk => h (mem_toList_node.mpr (Or.inl hk))
    have hkr : k ∉ r.toList := fun hk => h (mem_toList_node.mpr (Or.inr (Or.inr hk)))
    rcases lt_trichotomy k x with hlt | heq | hgt
    · simp [delete_node, hlt, ihl hkl]
    · exact absurd heq hx
    · simp [delete_node, hgt, not_lt_of_lt hgt, ihr hkr]

theorem toList_delete (t : Tree) : ∀ k : Int, t.isBST = true → k ∈ t.toList →
    (delete_node t k).toList.Perm (t.toList.erase k) := by
  induction t with
  | leaf => intro k _ hm; simp [Tree.toList] at hm
  | node x l r ihl ihr =>
    intro k hb hm
    rcases isBST_node.mp hb with ⟨hl, hr, bl, br⟩
    rcases lt_trichotomy k x with hlt | heq | hgt
    · have hkl : k ∈ l.toList := by
        rcases mem_toList_node.mp hm with h | rfl | h
        · exact h
        · exact absurd hlt (lt_irrefl k)
        · exact absurd hlt (not_lt.mpr (hr k h))
      rw [show delete_node (.node x l r) k = .node x (delete_node l k) r by
        simp [delete_node, hlt]]
      show ((delete_node l k).toList ++ x :: r.toList).Perm
        ((l.toList ++ x :: r.toList).erase k)
      rw [List.erase_append_left _ hkl]
      exact (ihl k bl hkl).append_right _
    · subst heq
      have hxl : k ∉ l.toList := fun h => absurd (hl k h) (lt_irrefl k)
      cases l with
      | leaf =>
        rw [show delete_node (.node k .leaf r) k = r by simp [delete_node]]
        show r.toList.Perm (([] ++ k :: r.toList).erase k)
        simp
      | node lv la lb =>
        cases r with
        | leaf =>
          rw [show delete_node (.node k (.node lv la lb) .leaf) k = .node lv la lb by
            simp [delete_node]]
          show (Tree.node lv la lb).toList.Perm
            (((Tree.node lv la lb).toList ++ [k]).erase k)
          rw [List.erase_append_right _ hxl]
          simp
        | node rv ra rb =>
          set l := Tree.node lv la lb with hldef
          set r := Tree.node rv ra rb with hrdef
          have hrne : r ≠ .leaf := by simp [hrdef]
          have hmem : leftmostVal r ∈ r.toList := leftmost_mem hrne
          rw [show delete_node (.node k l r) k =
              .node (leftmostVal r) l (delete_node r (leftmostVal r)) by
            simp [delete_node, hldef, hrdef]]
          show (l.toList ++ leftmostVal r :: (delete_node r (leftmostVal r)).toList).Perm
            ((l.toList ++ k :: r.toList).erase k)
          rw [List.erase_append_right _ hxl, List.erase_cons_head]
          refine List.Perm.append_left l.toList ?_
          exact ((ihr _ br hmem).cons _).trans (List.perm_cons_erase hmem).symm
    · have hkr : k ∈ r.toList := by
        rcases mem_toList_node.mp hm with h | rfl | h
        · exact absurd (hl k h) (not_lt.mpr (le_of_lt hgt))
        · exact absurd hgt (lt_irrefl k)
        · exact h
      have hkl : k ∉ l.toList := fun h => absurd (hl k h) (not_lt.mpr (le_of_lt hgt))
      rw [show delete_node (.node x l r) k = .node x l (delete_node r k) by
        simp [delete_node, hgt, not_lt_of_lt hgt]]
      show (l.toList ++ x :: (delete_node r k).toList).Perm
        ((l.toList ++ x :: r.toList).erase k)
      rw [List.erase_append_right _ hkl,
        List.erase_cons_tail (by simpa using ne_of_lt hgt)]
      exact List.Perm.append_left _ ((ihr k br hkr).cons x)

theorem mem_delete_subset {t : Tree} {k y : Int} (hb : t.isBST = true)
    (hy : y ∈ (delete_node t k).toList) : y ∈ t.toList := by
  by_cases hm : k ∈ t.toList
  · have := (toList_delete t k hb hm).mem_iff.mp hy
    exact List.mem_of_mem_erase this
  · rwa [delete_not_mem t k hm] at hy

theorem isBST_delete (t : Tree) : ∀ k : Int, t.isBST = true →
    (delete_node t k).isBST = true := by
  induction t with
  | leaf => intro k _; rfl
  | node x l r ihl ihr =>
    intro k hb
    rcases isBST_node.mp hb with ⟨hl, hr, bl, br⟩
    rcases lt_trichotomy k x with hlt | heq | hgt
    · rw [show delete_node (.node x l r) k = .node x (delete_node l k) r by
        simp [delete_node, hlt]]
      exact isBST_node.mpr
        ⟨fun y hy => hl y (mem_delete_subset bl hy), hr, ihl k bl, br⟩
    · subst heq
      cases l with
      | leaf =>
        rw [show delete_node (.node k .leaf r) k = r by simp [delete_node]]
        exact br
      | node lv la lb =>
        cases r with
        | leaf =>
          rw [show delete_node (.node k (.node lv la lb) .leaf) k =
              .node lv la lb by simp [delete_node]]
          exact bl
        | node rv ra rb =>
          set l := Tree.node lv la lb with hldef
          set r := Tree.node rv ra rb with hrdef
          have hrne : r ≠ .leaf := by simp [hrdef]
          have hmem : leftmostVal r ∈ r.toList := leftmost_mem hrne
          rw [show delete_node (.node k l r) k =
              .node (leftmostVal r) l (delete_node r (leftmostVal r)) by
            simp [delete_node, hldef, hrdef]]
          refine isBST_node.mpr ⟨?_, ?_, bl, ihr _ br⟩
          · exact fun y hy => lt_of_lt_of_le (hl y hy) (hr _ hmem)
          · exact fun y hy => leftmost_le br hrne y (mem_delete_subset br hy)
    · rw [show delete_node (.node x l r) k = .node x l (delete_node r k) by
        simp [delete_node, hgt, not_lt_of_lt hgt]]
      exact isBST_node.mpr
        ⟨hl, fun y hy => hr y (mem_delete_subset br hy), bl, ihr k br⟩

/-! ## Lemmas about the heap embedding -/

theorem hGet_eq_getElem {l : List Int} {i : Nat} (h : i < l.length) :
    hGet l i = l[i] := List.getD_eq_getElem l 0 h

theorem hGet_set_self {l : List Int} {i : Nat} (h : i < l.length) (a : Int) :
    hGet (l.set i a) i = a := by
  rw [hGet_eq_getElem (by simpa using h)]
  exact List.getElem_set_self _

theorem hGet_set_of_ne {l : List Int} {i j : Nat} (h : i ≠ j) (a : Int) :
    hGet (l.set i a) j = hGet l j := by
  simp [hGet, List.getD_eq_getElem?_getD, List.getElem?_set_ne h]

theorem set_hGet_self {l : List Int} {i : Nat} (h : i < l.length) :
    l.set i (hGet l i) = l := by
  rw [hGet_eq_getElem h]
  apply List.ext_getElem
  · simp
  · intro k h1 h2
    simp only [List.getElem_set]
    split
    · next heq => subst heq; rfl
    · rfl

theorem hSwap_length (l : List Int) (i j : Nat) :
    (hSwap l i j).length = l.length := by simp [hSwap]

theorem hGet_hSwap_fst {l : List Int} {i j : Nat} (hi : i < l.length)
    (hj : j < l.length) : hGet (hSwap l i j) i = hGet l j := by
  unfold hSwap
  by_cases hij : j = i
  · subst hij; rw [hGet_set_self (by simpa using hi)]
  · rw [hGet_set_of_ne hij, hGet_set_self hi]

theorem hGet_hSwap_snd {l : List Int} {i j : Nat} (hj : j < l.length) :
    hGet (hSwap l i j) j = hGet l i := by
  unfold hSwap
  rw [hGet_set_self (by simpa using hj)]

theorem hGet_hSwap_other {l : List Int} {i j a : Nat} (ha : a ≠ i) (hb : a ≠ j) :
    hGet (hSwap l i j) a = hGet l a := by
  unfold hSwap
  rw [hGet_set_of_ne (Ne.symm hb), hGet_set_of_ne (Ne.symm ha)]

theorem hSwap_perm (l : List Int) {i j : Nat} (hi : i < l.length)
    (hj : j < l.length) : (hSwap l i j).Perm l := by
  by_cases hij : i = j
  · subst hij
    unfold hSwap
    rw [List.set_set, set_hGet_self hi]
  · rw [List.perm_iff_count]
    intro a
    unfold hSwap
    rw [List.count_set _ _ _ _ (by simpa using hj),
      List.count_set _ _ _ _ hi]
    rw [hGet_eq_getElem hi, hGet_eq_getElem hj]
    rw [List.getElem_set_ne hij]
    have hpos : (l[i] == a) = true → 1 ≤ l.count a := fun hia =>
      List.count_pos_iff.mpr (by rw [← beq_iff_eq.mp hia]; exact List.getElem_mem hi)
    split_ifs
    all_goals try omega
    all_goals (have hcnt := hpos (by assumption); omega)

/-- Heap child relation on indices: `b` is `2a+1` or `2a+2`. -/
def childOf (a b : Nat) : Prop := b = 2 * a + 1 ∨ b = 2 * a + 2

/-- The heap invariant from position `k` on: every parent-child pair
with the parent at index `≥ k` (child in range) is ordered. -/
def HeapFrom (k : Nat) (l : List Int) : Prop :=
  ∀ a b, childOf a b → k ≤ a → b < l.length → hGet l a ≤ hGet l b

/-- The min-heap invariant of the whole array. -/
def heapInv (l : List Int) : Prop := HeapFrom 0 l

/-- Descendant relation (reflexive-transitive closure of `childOf`). -/
inductive Desc : Nat → Nat → Prop
  | refl (i : Nat) : Desc i i
  | step {i j k : Nat} : Desc i j → childOf j k → Desc i k

theorem childOf_lt {a b : Nat} (h : childOf a b) : a < b := by
  rcases h with rfl | rfl <;> omega

theorem child_parent {a b : Nat} (h : childOf a b) : (b - 1) / 2 = a := by
  rcases h with rfl | rfl <;> omega

theorem parent_child {i : Nat} (h : 0 < i) : childOf ((i - 1) / 2) i := by
  unfold childOf
  omega

theorem Desc.le {i j : Nat} (h : Desc i j) : i ≤ j := by
  induction h with
  | refl => exact le_refl _
  | step _ hc ih => exact le_of_lt (lt_of_le_of_lt ih (childOf_lt hc))

theorem Desc.prepend {i s j : Nat} (hc : childOf i s) (h : Desc s j) : Desc i j := by
  induction h with
  | refl => exact .step (.refl i) hc
  | step _ hcs ih => exact .step ih hcs

theorem Desc.last_step {a b : Nat} (h : Desc a b) :
    a = b ∨ (0 < b ∧ Desc a ((b - 1) / 2)) := by
  induction h with
  | refl => exact Or.inl rfl
  | step hd hc _ =>
    refine Or.inr ⟨?_, ?_⟩
    · exact Nat.lt_of_le_of_lt (Nat.zero_le _) (childOf_lt hc)
    · rw [child_parent hc]; exact hd

/-- Two ancestors of the same index are comparable. -/
theorem Desc.comparable {c a j : Nat} (h₁ : Desc c j) (h₂ : Desc a j) :
    Desc c a ∨ Desc a c := by
  induction j using Nat.strong_induction_on with
  | _ j ih =>
    rcases h₁.last_step with rfl | ⟨hj, hc'⟩
    · exact Or.inr h₂
    · rcases h₂.last_step with rfl | ⟨_, ha'⟩
      · exact Or.inl h₁
      · exact ih ((j - 1) / 2) (by omega) hc' ha'

/-- Subtrees of distinct children of the same node are disjoint. -/
theorem sibling_not_desc {i c s j : Nat} (hc : childOf i c) (hs : childOf i s)
    (hne : c ≠ s) (hdc : Desc c j) : ¬ Desc s j := by
  intro hds
  rcases Desc.comparable hdc hds with h | h
  · rcases h.last_step with rfl | ⟨hpos, hd⟩
    · exact hne rfl
    · rw [child_parent hs] at hd
      exact absurd h.le (by have := hd.le; have := childOf_lt hc; omega)
  · rcases h.last_step with heq | ⟨hpos, hd⟩
    · exact hne heq.symm
    · rw [child_parent hc] at hd
      exact absurd h.le (by have := hd.le; have := childOf_lt hs; omega)

/-- Along the heap invariant, a node is below all of its descendants. -/
theorem HeapFrom.desc_le {k : Nat} {l : List Int} (h : HeapFrom k l) {a b : Nat}
    (ha : k ≤ a) (hd : Desc a b) (hb : b < l.length) : hGet l a ≤ hGet l b := by
  induction hd with
  | refl => exact le_refl _
  | step hd hc ih =>
    refine le_trans (ih (lt_trans (childOf_lt hc) hb)) ?_
    exact h _ _ hc (le_trans ha hd.le) hb

theorem HeapFrom.mono {k k' : Nat} {l : List Int} (h : HeapFrom k l)
    (hk : k ≤ k') : HeapFrom k' l :=
  fun a b hc ha hb => h a b hc (le_trans hk ha) hb

theorem heapSmallest_spec (l : List Int) (i : Nat) (hch : 2 * i + 1 < l.length) :
    (heapSmallest l i = i ∨ childOf i (heapSmallest l i)) ∧
    heapSmallest l i < l.length ∧
    (heapSmallest l i ≠ i → hGet l (heapSmallest l i) < hGet l i) ∧
    hGet l (heapSmallest l i) ≤ hGet l (2 * i + 1) ∧
    (2 * i + 2 < l.length → hGet l (heapSmallest l i) ≤ hGet l (2 * i + 2)) ∧
    hGet l (heapSmallest l i) ≤ hGet l i := by
  simp only [heapSmallest]
  split_ifs with h1 h2 h3 h4 h5 <;>
    refine ⟨?_, ?_, ?_, ?_, ?_, ?_⟩ <;>
    first
      | (exact Or.inr (Or.inl rfl))
      | (exact Or.inr (Or.inr rfl))
      | (exact Or.inl rfl)
      | omega
      | (intro; linarith)
      | linarith
      | (intro h; exact absurd rfl h)

/-- Full specification of one sift-down run from index `i`: with fuel
covering the remaining indices, the result has the same length, is a
permutation of the input, agrees with the input outside `i`'s subtree,
keeps every lower bound on the subtree's values, and restores the heap
invariant from `i` on whenever it held from `i + 1` on. -/
theorem bubbleDownF_spec : ∀ (fuel : Nat) (l : List Int) (i : Nat),
    l.length ≤ fuel + i →
    (bubbleDownF fuel l i).length = l.length ∧
    (bubbleDownF fuel l i).Perm l ∧
    (∀ j, ¬ Desc i j → hGet (bubbleDownF fuel l i) j = hGet l j) ∧
    (∀ v : Int, (∀ j, Desc i j → j < l.length → v ≤ hGet l j) →
      ∀ j, Desc i j → j < l.length → v ≤ hGet (bubbleDownF fuel l i) j) ∧
    (HeapFrom (i + 1) l → HeapFrom i (bubbleDownF fuel l i)) := by
  intro fuel
  induction fuel with
  | zero =>
    intro l i hfuel
    refine ⟨rfl, .refl _, fun j _ => rfl, fun v hv => hv, ?_⟩
    intro _ a b hc ha hb
    have hb' : b < l.length := hb
    exact absurd hb' (by have := childOf_lt hc; omega)
  | succ fuel ih =>
    intro l i hfuel
    by_cases hch : 2 * i + 1 < l.length
    · obtain ⟨hskind, hslt, hsdec, hsleft, hsright, hsle⟩ := heapSmallest_spec l i hch
      by_cases hsi : heapSmallest l i = i
      · have heq : bubbleDownF (fuel + 1) l i = l := by
          simp [bubbleDownF, hch, hsi]
        rw [heq]
        refine ⟨rfl, .refl _, fun j _ => rfl, fun v hv => hv, ?_⟩
        intro h a b hc ha hb
        rcases Nat.eq_or_lt_of_le ha with rfl | ha'
        · rw [hsi] at hsleft hsright
          rcases hc with rfl | rfl
          · exact hsleft
          · exact hsright hb
        · exact h a b hc ha' hb
      · set s := heapSmallest l i with hsdef
        have hcs : childOf i s := hskind.resolve_left hsi
        have hilt : i < s := childOf_lt hcs
        have hsltl : s < l.length := hslt
        have hin : i < l.length := lt_trans hilt hsltl
        have hstrict : hGet l s < hGet l i := hsdec hsi
        have heq : bubbleDownF (fuel + 1) l i = bubbleDownF fuel (hSwap l i s) s := by
          rw [show bubbleDownF (fuel + 1) l i =
            (if 2 * i + 1 < l.length then
              if heapSmallest l i = i then l
              else bubbleDownF fuel (hSwap l i (heapSmallest l i)) (heapSmallest l i)
            else l) from rfl]
          rw [if_pos hch, if_neg hsi, ← hsdef]
        have hlen' : (hSwap l i s).length = l.length := hSwap_length l i s
        have hfuel' : (hSwap l i s).length ≤ fuel + s := by omega
        obtain ⟨ihlen, ihperm, ihout, ihbound, ihheap⟩ := ih (hSwap l i s) s hfuel'
        have hnotdesc_i : ¬ Desc s i := fun hd => absurd hd.le (by omega)
        have houtside : ∀ j, ¬ Desc i j →
            hGet (bubbleDownF fuel (hSwap l i s) s) j = hGet l j := by
          intro j hj
          have hjs : ¬ Desc s j := fun hd => hj (Desc.prepend hcs hd)
          have hji : j ≠ i := fun h => hj (h ▸ Desc.refl i)
          have hjs' : j ≠ s := fun h => hj (h ▸ Desc.step (.refl i) hcs)
          rw [ihout j hjs, hGet_hSwap_other hji hjs']
        have hswap_bound : ∀ v : Int, (∀ j, Desc i j → j < l.length → v ≤ hGet l j) →
            ∀ j, Desc i j → j < l.length → v ≤ hGet (hSwap l i s) j := by
          intro v hv j hd hj
          by_cases hji : j = i
          · rw [hji, hGet_hSwap_fst hin hsltl]
            exact hv s (Desc.step (.refl i) hcs) hsltl
          · by_cases hjs : j = s
            · rw [hjs, hGet_hSwap_snd hsltl]
              exact hv i (Desc.refl i) hin
            · rw [hGet_hSwap_other hji hjs]
              exact hv j hd hj
        rw [heq]
        refine ⟨ihlen.trans hlen', ihperm.trans (hSwap_perm l hin hsltl), houtside, ?_, ?_⟩
        · intro v hv j hd hj
          by_cases hds : Desc s j
          · refine ihbound v ?_ j hds (by omega)
            intro j' hd' hj'
            exact hswap_bound v hv j' (Desc.prepend hcs hd') (by omega)
          · rw [ihout j hds]
            by_cases hji : j = i
            · rw [hji, hGet_hSwap_fst hin hsltl]
              exact hv s (Desc.step (.refl i) hcs) hsltl
            · have hjs : j ≠ s := fun h => hds (h ▸ Desc.refl s)
              rw [hGet_hSwap_other hji hjs]
              exact hv j hd hj
        · intro hheap
          have hheap' : HeapFrom (s + 1) (hSwap l i s) := by
            intro a b hc ha hb
            have hba : a < b := childOf_lt hc
            rw [hGet_hSwap_other (by omega) (by omega),
              hGet_hSwap_other (by omega) (by omega)]
            exact hheap a b hc (by omega) (by omega)
          have hrec := ihheap hheap'
          -- the value now sitting at every index of s's subtree is at
          -- least the swapped-down small value hGet l s
          have hsub_lb : ∀ j, Desc s j → j < l.length →
              hGet l s ≤ hGet (bubbleDownF fuel (hSwap l i s) s) j := by
            intro j hd hj
            refine ihbound (hGet l s) ?_ j hd (by omega)
            intro j' hd' hj'
            by_cases hji : j' = s
            · rw [hji, hGet_hSwap_snd hsltl]
              exact le_of_lt hstrict
            · have hji' : j' ≠ i := fun h => absurd (h ▸ hd'.le) (by omega)
              rw [hGet_hSwap_other hji' hji]
              exact hheap.desc_le (by omega) hd' (by omega)
          intro a b hc ha hb
          rw [ihlen, hlen'] at hb
          rcases Nat.lt_or_ge a s with haslt | hasge
          · rcases Nat.eq_or_lt_of_le ha with rfl | ha'
            · -- a = i: its new value is hGet l s; b is s or its sibling
              have hresa : hGet (bubbleDownF fuel (hSwap l i s) s) i = hGet l s := by
                rw [ihout i hnotdesc_i, hGet_hSwap_fst hin hsltl]
              rw [hresa]
              by_cases hbs : b = s
              · subst hbs
                exact hsub_lb s (Desc.refl s) hb
              · have hndb : ¬ Desc s b := sibling_not_desc hc hcs hbs (Desc.refl b)
                have hbi : b ≠ i := by have := childOf_lt hc; omega
                rw [ihout b hndb, hGet_hSwap_other hbi hbs]
                rcases hc with rfl | rfl
                · exact hsleft
                · exact hsright hb
            · -- i < a < s: the pair lies outside the modified subtree
              have hdca : ¬ Desc s a := fun hd => absurd hd.le (by omega)
              have hbs : b ≠ s := by
                intro hbs
                have := child_parent hc
                have := child_parent hcs
                omega
              have hdcb : ¬ Desc s b := by
                intro hd
                rcases Desc.comparable hd (Desc.step (.refl a) hc) with h | h
                · exact absurd h.le (by omega)
                · rcases h.last_step with heq' | ⟨hbpos, hd'⟩
                  · omega
                  · rw [child_parent hcs] at hd'
                    exact absurd hd'.le (by omega)
              have hba := childOf_lt hc
              rw [ihout a hdca, ihout b hdcb,
                hGet_hSwap_other (by omega) (by omega),
                hGet_hSwap_other (by omega) (by omega)]
              exact hheap a b hc (by omega) hb
          · exact hrec a b hc hasge (by rw [ihlen, hlen']; exact hb)
    · have heq : bubbleDownF (fuel + 1) l i = l := by
        simp [bubbleDownF, hch]
      rw [heq]
      refine ⟨rfl, .refl _, fun j _ => rfl, fun v hv => hv, ?_⟩
      intro h a b hc ha hb
      rcases Nat.eq_or_lt_of_le ha with rfl | ha'
      · rcases hc with rfl | rfl <;> omega
      · exact h a b hc ha' hb

/-- `hGet` after appending one element, below the old length. -/
theorem hGet_append_lt {l : List Int} {v : Int} {i : Nat} (h : i < l.length) :
    hGet (l ++ [v]) i = hGet l i := by
  simp [hGet, List.getD_eq_getElem?_getD, List.getElem?_append, h]

/-- `hGet` after appending one element, at the old length. -/
theorem hGet_append_self {l : List Int} {v : Int} :
    hGet (l ++ [v]) l.length = v := by
  simp [hGet, List.getD_eq_getElem?_getD, List.getElem?_concat_length]

/-- The almost-heap invariant of `_bubble_up` at index `i`: every
parent-child pair is ordered except possibly the one above `i`, and
(grandparent bound) `i`'s parent is below `i`'s children. -/
def BUInv (i : Nat) (l : List Int) : Prop :=
  (∀ a b, childOf a b → b < l.length → ¬(a = (i - 1) / 2 ∧ b = i) →
    hGet l a ≤ hGet l b) ∧
  (0 < i → ∀ b, childOf i b → b < l.length → hGet l ((i - 1) / 2) ≤ hGet l b)

/-- `_bubble_up` restores the full heap invariant from the almost-heap
invariant, permuting the array. -/
theorem bubbleUp_spec : ∀ (i : Nat) (l : List Int), i < l.length → BUInv i l →
    (bubbleUp l i).length = l.length ∧ (bubbleUp l i).Perm l ∧
      heapInv (bubbleUp l i) := by
  intro i
  induction i using Nat.strong_induction_on with
  | _ i ih =>
    intro l hil hbu
    obtain ⟨hpairs, hgrand⟩ := hbu
    by_cases hi : 0 < i
    · have hpi : (i - 1) / 2 < i := by omega
      have hpil : (i - 1) / 2 < l.length := lt_trans hpi hil
      have hcpi : childOf ((i - 1) / 2) i := parent_child hi
      by_cases hswap : hGet l i < hGet l ((i - 1) / 2)
      · have heq : bubbleUp l i = bubbleUp (hSwap l i ((i - 1) / 2)) ((i - 1) / 2) := by
          rw [bubbleUp]
          simp [hi, hswap]
        set p := (i - 1) / 2 with hpdef
        set l' := hSwap l i p with hlqdef
        have hlen' : l'.length = l.length := hSwap_length l i p
        have hvi : hGet l' i = hGet l p := hGet_hSwap_fst hil hpil
        have hvp : hGet l' p = hGet l i := hGet_hSwap_snd hpil
        have hvo : ∀ a, a ≠ i → a ≠ p → hGet l' a = hGet l a := fun a h1 h2 =>
          hGet_hSwap_other h1 h2
        have hinv' : BUInv p l' := by
          constructor
          · intro a b hc hb hne
            rw [hlen'] at hb
            have hab := childOf_lt hc
            by_cases hbi : b = i
            · subst hbi
              have hap : a = p := by rw [← child_parent hc]
              subst hap
              rw [hvi, hvp]
              exact le_of_lt hswap
            · by_cases hbp : b = p
              · subst hbp
                have : a = (p - 1) / 2 := by rw [← child_parent hc]
                exact absurd ⟨this, rfl⟩ hne
              · by_cases hap : a = p
                · subst hap
                  rw [hvp, hvo b hbi hbp]
                  refine le_trans (le_of_lt hswap) ?_
                  exact hpairs p b hc hb (fun h => hbi h.2)
                · by_cases hai : a = i
                  · subst hai
                    rw [hvi, hvo b hbi hbp]
                    exact hgrand hi b hc hb
                  · rw [hvo a hai hap, hvo b hbi hbp]
                    exact hpairs a b hc hb (fun h => hap h.1)
          · intro hp b hc hb
            rw [hlen'] at hb
            have hpp : (p - 1) / 2 < p := by omega
            have hppne : (p - 1) / 2 ≠ p := ne_of_lt hpp
            have hppi : (p - 1) / 2 ≠ i := by omega
            rw [hvo _ hppi hppne]
            have hcpp : childOf ((p - 1) / 2) p := parent_child hp
            have base : hGet l ((p - 1) / 2) ≤ hGet l p :=
              hpairs _ p hcpp hpil (fun h => by
                have := h.2
                omega)
            have hbzero := childOf_lt hc
            by_cases hbi : b = i
            · subst hbi
              rw [hvi]
              exact base
            · have hbp : b ≠ p := by omega
              rw [hvo b hbi hbp]
              refine le_trans base ?_
              exact hpairs p b hc hb (fun h => hbi h.2)
        rw [heq]
        obtain ⟨rlen, rperm, rheap⟩ :=
          ih p hpi l' (by rw [hlen']; exact hpil) hinv'
        exact ⟨rlen.trans hlen', rperm.trans (hSwap_perm l hil hpil), rheap⟩
      · have heq : bubbleUp l i = l := by
          rw [bubbleUp]
          simp [hi, hswap]
        rw [heq]
        refine ⟨rfl, .refl _, ?_⟩
        intro a b hc _ hb
        by_cases hbi : b = i
        · have hap : a = (i - 1) / 2 := by rw [← child_parent hc, hbi]
          rw [hap, hbi]
          exact le_of_not_lt hswap
        · exact hpairs a b hc hb (fun h => hbi h.2)
    · have heq : bubbleUp l i = l := by
        rw [bubbleUp]
        simp [hi]
      rw [heq]
      refine ⟨rfl, .refl _, ?_⟩
      intro a b hc _ hb
      refine hpairs a b hc hb ?_
      rintro ⟨rfl, rfl⟩
      have := childOf_lt hc
      omega

/-- `push` keeps the heap invariant and adds the pushed value. -/
theorem push_spec {l : List Int} (h : heapInv l) (v : Int) :
    heapInv (MinHeap.push l v) ∧ (MinHeap.push l v).Perm (v :: l) ∧
      (MinHeap.push l v).length = l.length + 1 := by
  have hlen : (l ++ [v]).length = l.length + 1 := by simp
  have hbu : BUInv l.length (l ++ [v]) := by
    constructor
    · intro a b hc hb hne
      rw [hlen] at hb
      by_cases hbl : b = l.length
      · exact absurd ⟨by rw [← child_parent hc, hbl], hbl⟩ hne
      · have hb' : b < l.length := by omega
        have ha' : a < l.length := lt_trans (childOf_lt hc) hb'
        rw [hGet_append_lt ha', hGet_append_lt hb']
        exact h a b hc (Nat.zero_le a) hb'
    · intro _ b hc hb
      rw [hlen] at hb
      have := childOf_lt hc
      omega
  obtain ⟨rlen, rperm, rheap⟩ :=
    bubbleUp_spec l.length (l ++ [v]) (by simp) hbu
  refine ⟨rheap, rperm.trans (List.perm_append_singleton v l), ?_⟩
  show (bubbleUp (l ++ [v]) l.length).length = l.length + 1
  rw [rlen, hlen]

/-- Every index is a descendant of the root. -/
theorem desc_zero (j : Nat) : Desc 0 j := by
  induction j using Nat.strong_induction_on with
  | _ j ih =>
    by_cases hj : j = 0
    · rw [hj]; exact .refl 0
    · exact .step (ih ((j - 1) / 2) (by omega)) (parent_child (by omega))

/-- In a heap, the root is a minimum. -/
theorem heap_root_min {l : List Int} (h : heapInv l) {j : Nat}
    (hj : j < l.length) : hGet l 0 ≤ hGet l j :=
  h.desc_le (Nat.zero_le 0) (desc_zero j) hj

/-- `hGet` through `dropLast`, below the shortened length. -/
theorem hGet_dropLast {l : List Int} {i : Nat} (h : i < l.length - 1) :
    hGet l.dropLast i = hGet l i := by
  have hdl : i < l.dropLast.length := by rw [List.length_dropLast]; exact h
  have hl : i < l.length := by omega
  rw [hGet_eq_getElem hdl, hGet_eq_getElem hl]
  exact List.getElem_dropLast l i hdl

/-- `pop` on a nonempty heap returns the minimum and keeps the heap
invariant on the remaining values. -/
theorem pop_spec {l : List Int} (h : heapInv l) (hne : l ≠ []) :
    ∃ out rest, MinHeap.pop l = .ok (out, rest) ∧ heapInv rest ∧
      (out :: rest).Perm l ∧ ∀ x ∈ rest, out ≤ x := by
  by_cases h1 : l.length = 1
  · obtain ⟨a, rfl⟩ := List.length_eq_one.mp h1
    refine ⟨a, [], ?_, ?_, .refl _, by simp⟩
    · simp [MinHeap.pop, hGet]
    · intro x y _ _ hy
      simp at hy
  · have hpos : 0 < l.length := List.length_pos.mpr hne
    have hlen2 : 2 ≤ l.length := by omega
    obtain ⟨c, e, es, rfl⟩ : ∃ c e es, l = c :: e :: es := by
      cases l with
      | nil => exact absurd rfl hne
      | cons c t =>
        cases t with
        | nil => simp at h1
        | cons e es => exact ⟨c, e, es, rfl⟩
    set l := c :: e :: es with hldef
    set last := hGet l (l.length - 1) with hlastdef
    set ds := (e :: es).dropLast with hdsdef
    have hdl : l.dropLast = c :: ds := rfl
    have hlast : l.getLast hne = last := by
      rw [List.getLast_eq_getElem, hlastdef, hGet_eq_getElem (by omega)]
    set m := l.dropLast.set 0 last with hmdef
    have hm : m = last :: ds := by rw [hmdef, hdl]; rfl
    have hmlen : m.length = l.length - 1 := by
      rw [hmdef, List.length_set, List.length_dropLast]
    have hdecomp : l = c :: (ds ++ [last]) := by
      conv_lhs => rw [← List.dropLast_append_getLast hne]
      rw [hdl, hlast]
      rfl
    have hmheap : HeapFrom 1 m := by
      intro a b hc ha hb
      rw [hmlen] at hb
      have hab := childOf_lt hc
      rw [hmdef, hGet_set_of_ne (by omega), hGet_set_of_ne (by omega),
        hGet_dropLast (by omega), hGet_dropLast (by omega)]
      exact h a b hc (Nat.zero_le a) (by omega)
    obtain ⟨blen, bperm, _, _, bheap⟩ :=
      bubbleDownF_spec m.length m 0 (by omega)
    have hpop : MinHeap.pop l = .ok (hGet l 0, bubbleDown m 0) := by
      simp only [MinHeap.pop, if_neg h1]
    have hperm_main : (hGet l 0 :: bubbleDown m 0).Perm l := by
      have h2 : (bubbleDown m 0).Perm (last :: ds) := by
        refine List.Perm.trans bperm ?_
        rw [hm]
      have h3 : (hGet l 0 :: bubbleDown m 0).Perm (hGet l 0 :: (ds ++ [last])) :=
        (h2.trans (List.perm_append_singleton last ds).symm).cons _
      rw [hdecomp]
      exact h3
    refine ⟨hGet l 0, bubbleDown m 0, hpop, bheap hmheap, hperm_main, ?_⟩
    intro x hx
    have hxm : x ∈ l := hperm_main.mem_iff.mp (List.mem_cons_of_mem _ hx)
    obtain ⟨j, hjl, hjx⟩ := List.mem_iff_getElem.mp hxm
    rw [← hjx, ← hGet_eq_getElem hjl]
    exact heap_root_min h hjl

/-- Popping a heap `length` times yields a sorted permutation of its
contents.  Each successful pop removes exactly one element, so `fuel`
equal to the length drains the heap. -/
theorem popAllF_spec : ∀ (fuel : Nat) (l : List Int), l.length = fuel →
    heapInv l → (popAllF fuel l).Sorted (· ≤ ·) ∧ (popAllF fuel l).Perm l := by
  intro fuel
  induction fuel with
  | zero =>
    intro l hlen _
    have : l = [] := List.eq_nil_of_length_eq_zero hlen
    subst this
    exact ⟨List.sorted_nil, .refl _⟩
  | succ fuel ih =>
    intro l hlen hheap
    have hne : l ≠ [] := by
      intro h
      rw [h] at hlen
      simp at hlen
    obtain ⟨out, rest, hpop, hrheap, hrperm, hrmin⟩ := pop_spec hheap hne
    have heq : popAllF (fuel + 1) l = out :: popAllF fuel rest := by
      simp only [popAllF, hpop]
    have hrlen : rest.length = fuel := by
      have := hrperm.length_eq
      simp at this
      omega
    obtain ⟨ihsorted, ihperm⟩ := ih rest hrlen hrheap
    rw [heq]
    constructor
    · refine List.sorted_cons.mpr ⟨?_, ihsorted⟩
      intro b hb
      exact hrmin b (ihperm.mem_iff.mp hb)
    · exact (ihperm.cons out).trans hrperm

/-- The bottom-up heapify loop establishes the heap invariant. -/
theorem heapifyLoop_spec : ∀ (k : Nat) (l : List Int), HeapFrom k l →
    heapInv (heapifyLoop k l) ∧ (heapifyLoop k l).Perm l ∧
      (heapifyLoop k l).length = l.length := by
  intro k
  induction k with
  | zero => exact fun l h => ⟨h, .refl _, rfl⟩
  | succ k ih =>
    intro l hk
    obtain ⟨blen, bperm, _, _, bheap⟩ :=
      bubbleDownF_spec l.length l k (by omega)
    obtain ⟨ihheap, ihperm, ihlen⟩ := ih (bubbleDown l k) (bheap hk)
    exact ⟨ihheap, ihperm.trans bperm,
      by rw [show heapifyLoop (k + 1) l = heapifyLoop k (bubbleDown l k) from rfl, ihlen]
         exact blen⟩

/-- `heapify` produces a heap holding the same values. -/
theorem heapify_spec (l : List Int) :
    heapInv (heapify l) ∧ (heapify l).Perm l ∧ (heapify l).length = l.length := by
  refine heapifyLoop_spec (l.length / 2) l ?_
  intro a b hc ha hb
  rcases hc with rfl | rfl <;> omega

/-- Pushing a whole list builds a heap with exactly those values. -/
theorem pushAll_spec (vs : List Int) :
    heapInv (MinHeap.pushAll vs) ∧ (MinHeap.pushAll vs).Perm vs := by
  suffices h : ∀ (vs : List Int) (l : List Int), heapInv l →
      heapInv (vs.foldl MinHeap.push l) ∧
        (vs.foldl MinHeap.push l).Perm (l ++ vs) by
    have := h vs [] (by intro a b hc ha hb; simp [List.length] at hb)
    simpa [MinHeap.pushAll] using this
  intro vs
  induction vs with
  | nil => exact fun l hl => ⟨hl, by simp⟩
  | cons v rest ih =>
    intro l hl
    obtain ⟨pheap, pperm, _⟩ := push_spec hl v
    obtain ⟨ihheap, ihperm⟩ := ih (MinHeap.push l v) pheap
    refine ⟨ihheap, ihperm.trans ?_⟩
    refine (pperm.append_right rest).trans ?_
    have := @List.perm_middle Int v l rest
    simpa using this.symm

/-! ## Lemmas about the union-find embedding -/

theorem iterP_zero (p : List Nat) (x : Nat) : iterP p 0 x = x := rfl

theorem iterP_succ (p : List Nat) (k x : Nat) :
    iterP p (k + 1) x = iterP p k (pget p x) :=
  Function.iterate_succ_apply (pget p) k x

theorem iterP_succ' (p : List Nat) (k x : Nat) :
    iterP p (k + 1) x = pget p (iterP p k x) :=
  Function.iterate_succ_apply' (pget p) k x

theorem iterP_add (p : List Nat) (m k x : Nat) :
    iterP p (m + k) x = iterP p m (iterP p k x) :=
  Function.iterate_add_apply (pget p) m k x

theorem pget_out {p : List Nat} {x : Nat} (h : p.length ≤ x) : pget p x = x := by
  simp [pget, List.getD_eq_getElem?_getD, List.getElem?_eq_none h]

theorem pget_set_self {p : List Nat} {y : Nat} (h : y < p.length) (r : Nat) :
    pget (p.set y r) y = r := by
  simp [pget, List.getD_eq_getElem?_getD, List.getElem?_set_self (by simpa using h)]

theorem pget_set_ne {p : List Nat} {y z : Nat} (h : z ≠ y) (r : Nat) :
    pget (p.set y r) z = pget p z := by
  simp [pget, List.getD_eq_getElem?_getD, List.getElem?_set_ne (Ne.symm h)]

/-- Chains stay constant once they reach a fixed point. -/
theorem iterP_eventually_const {p : List Nat} {x k : Nat}
    (h : pget p (iterP p k x) = iterP p k x) :
    ∀ t, k ≤ t → iterP p t x = iterP p k x := by
  intro t ht
  obtain ⟨d, rfl⟩ := Nat.exists_eq_add_of_le ht
  induction d with
  | zero => rfl
  | succ d ihd =>
    rw [show k + (d + 1) = (k + d) + 1 by omega, iterP_succ', ihd (by omega), h]

theorem iterP_periodic {p : List Nat} {x i d : Nat}
    (hij : iterP p i x = iterP p (i + d) x) :
    ∀ m, iterP p (i + m * d) x = iterP p i x := by
  intro m
  induction m with
  | zero => simp
  | succ m ihm =>
    have harith : i + (m + 1) * d = d + (i + m * d) := by ring
    rw [harith, iterP_add, ihm, ← iterP_add, Nat.add_comm d i, ← hij]

/-- `Terminates p x`: the parent chain from `x` stabilises. -/
def Terminates (p : List Nat) (x : Nat) : Prop :=
  ∃ k, pget p (iterP p k x) = iterP p k x

/-- Well-formed parent array: entries of valid ids are valid and every
chain stabilises. -/
def WFp (p : List Nat) : Prop :=
  (∀ y, y < p.length → pget p y < p.length) ∧ (∀ x, Terminates p x)

theorem iterP_lt {p : List Nat} (hrange : ∀ y, y < p.length → pget p y < p.length)
    {x : Nat} (hx : x < p.length) : ∀ k, iterP p k x < p.length := by
  intro k
  induction k with
  | zero => exact hx
  | succ k ihk => rw [iterP_succ']; exact hrange _ ihk

/-- With a stabilising chain inside the index range, `p.length` steps
reach a fixed point. -/
theorem rootP_fix {p : List Nat} (hwf : WFp p) (x : Nat) :
    pget p (rootP p x) = rootP p x := by
  obtain ⟨hrange, hterm⟩ := hwf
  by_cases hx : x < p.length
  · obtain ⟨k, hk⟩ := hterm x
    by_cases hkn : k ≤ p.length
    · rw [rootP, iterP_eventually_const hk _ hkn]
      exact hk
    · -- pigeonhole: two of the first length+1 iterates coincide
      have hmaps : ∀ t ∈ Finset.range (p.length + 1),
          iterP p t x ∈ Finset.range p.length := by
        intro t _
        exact Finset.mem_range.mpr (iterP_lt hrange hx t)
      obtain ⟨i, hi, j, hj, hne, hequ⟩ :=
        Finset.exists_ne_map_eq_of_card_lt_of_maps_to
          (by simp) hmaps
      rcases Nat.lt_or_ge i j with hlt | hge
      · have hij' : iterP p i x = iterP p (i + (j - i)) x := by
          rw [show i + (j - i) = j by omega]
          exact hequ
        have hper := iterP_periodic hij'
        have hfixi : pget p (iterP p i x) = iterP p i x := by
          have h1 : iterP p i x = iterP p (i + k * (j - i)) x := (hper k).symm
          have h2 : iterP p (i + k * (j - i)) x = iterP p k x := by
            refine iterP_eventually_const hk _ ?_
            have h3 : k * 1 ≤ k * (j - i) := Nat.mul_le_mul_left k (by omega)
            omega
          rw [h1, h2]
          exact hk
        rw [rootP, iterP_eventually_const hfixi _ (by simp at hi; omega)]
        exact hfixi
      · have hlt : j < i := by omega
        have hij' : iterP p j x = iterP p (j + (i - j)) x := by
          rw [show j + (i - j) = i by omega]
          exact hequ.symm
        have hper := iterP_periodic hij'
        have hfixj : pget p (iterP p j x) = iterP p j x := by
          have h1 : iterP p j x = iterP p (j + k * (i - j)) x := (hper k).symm
          have h2 : iterP p (j + k * (i - j)) x = iterP p k x := by
            refine iterP_eventually_const hk _ ?_
            have h3 : k * 1 ≤ k * (i - j) := Nat.mul_le_mul_left k (by omega)
            omega
          rw [h1, h2]
          exact hk
        rw [rootP, iterP_eventually_const hfixj _ (by simp at hj; omega)]
        exact hfixj
  · have hfix : pget p x = x := pget_out (by omega)
    have : ∀ k, iterP p k x = x := fun k => @iterP_eventually_const p x 0 hfix k (by omega)
    rw [rootP, this]
    exact hfix

/-- Any fixed point reached from `x` is `x`'s root. -/
theorem rootP_eq_of_fix {p : List Nat} (hwf : WFp p) {x m : Nat}
    (h : pget p (iterP p m x) = iterP p m x) : rootP p x = iterP p m x := by
  by_cases hm : m ≤ p.length
  · rw [rootP, iterP_eventually_const h _ hm]
  · have hfix := rootP_fix hwf x
    rw [show iterP p m x = iterP p p.length x from
      iterP_eventually_const hfix m (by omega)]
    rfl

theorem rootP_of_root {p : List Nat} {x : Nat} (h : pget p x = x) :
    rootP p x = x := by
  rw [rootP, @iterP_eventually_const p x 0 h _ (Nat.zero_le _), iterP_zero]

theorem rootP_step {p : List Nat} (hwf : WFp p) (x : Nat) :
    rootP p (pget p x) = rootP p x := by
  refine @rootP_eq_of_fix p hwf (pget p x) p.length ?_ |>.trans ?_
  · rw [← iterP_succ, iterP_succ']
    rw [show pget p (iterP p p.length x) = iterP p p.length x from rootP_fix hwf x]
    exact rootP_fix hwf x
  · rw [← iterP_succ, iterP_succ']
    exact rootP_fix hwf x

theorem rootP_lt {p : List Nat} (hwf : WFp p) {x : Nat} (hx : x < p.length) :
    rootP p x < p.length :=
  iterP_lt hwf.1 hx p.length

theorem rootP_out {p : List Nat} {x : Nat} (hx : p.length ≤ x) :
    rootP p x = x :=
  rootP_of_root (pget_out hx)

theorem rootP_ne_self {p : List Nat} (hwf : WFp p) {x : Nat}
    (h : pget p x ≠ x) : rootP p x ≠ x := by
  intro heq
  exact h (by rw [← heq]; exact rootP_fix hwf x)

/-- A node strictly below its root never reappears on its own chain. -/
theorem no_cycle {p : List Nat} (hwf : WFp p) {x : Nat} (h : pget p x ≠ x) :
    ∀ k, iterP p k (pget p x) ≠ x := by
  intro k hk
  have hcyc : iterP p 0 x = iterP p (0 + (k + 1)) x := by
    rw [iterP_zero, Nat.zero_add, iterP_succ]
    exact hk.symm
  have hper := iterP_periodic hcyc
  obtain ⟨m, hm⟩ := hwf.2 x
  have h1 : iterP p 0 x = iterP p (0 + m * (k + 1)) x := (hper m).symm
  have h2 : iterP p (0 + m * (k + 1)) x = iterP p m x := by
    refine iterP_eventually_const hm _ ?_
    have h3 : m * 1 ≤ m * (k + 1) := Nat.mul_le_mul_left m (by omega)
    omega
  have hxfix : pget p x = x := by
    rw [iterP_zero] at h1
    rw [h1, h2, hm, ← h2, ← h1]
  exact h hxfix

/-- `ReachF p x r`: the chain from `x` reaches the fixed point `r`. -/
def ReachF (p : List Nat) (x r : Nat) : Prop :=
  (∃ k, iterP p k x = r) ∧ pget p r = r

theorem reachF_step {p : List Nat} {x w r : Nat} (hw : pget p x = w)
    (h : ReachF p w r) : ReachF p x r := by
  obtain ⟨⟨k, hk⟩, hfix⟩ := h
  exact ⟨⟨k + 1, by rw [iterP_succ, hw]; exact hk⟩, hfix⟩

theorem reachF_terminates {p : List Nat} {x r : Nat} (h : ReachF p x r) :
    Terminates p x := by
  obtain ⟨⟨k, hk⟩, hfix⟩ := h
  exact ⟨k, by rw [hk]; exact hfix⟩

theorem rootP_eq_of_reachF {p : List Nat} (hwf : WFp p) {x r : Nat}
    (h : ReachF p x r) : rootP p x = r := by
  obtain ⟨⟨k, hk⟩, hfix⟩ := h
  rw [@rootP_eq_of_fix p hwf x k (by rw [hk]; exact hfix), hk]

/-- Redirecting a non-root node straight to its own root preserves
well-formedness and every root. -/
theorem compress_spec {p : List Nat} (hwf : WFp p) {y : Nat}
    (hy : y < p.length) (hnr : pget p y ≠ y) :
    WFp (p.set y (rootP p y)) ∧
      ∀ z, rootP (p.set y (rootP p y)) z = rootP p z := by
  set r := rootP p y with hrdef
  set p' := p.set y r with hpqdef
  have hlen : p'.length = p.length := by rw [hpqdef, List.length_set]
  have hry : r ≠ y := rootP_ne_self hwf hnr
  have hrfix : pget p r = r := rootP_fix hwf y
  have hrfix' : pget p' r = r := by rw [hpqdef, pget_set_ne hry]; exact hrfix
  have hreach : ∀ k z, pget p (iterP p k z) = iterP p k z → ReachF p' z (rootP p z) := by
    intro k
    induction k with
    | zero =>
      intro z hz
      rw [iterP_zero] at hz
      have hzy : z ≠ y := fun h => hnr (h ▸ hz)
      refine ⟨⟨0, (iterP_zero p' z).trans (rootP_of_root hz).symm⟩, ?_⟩
      rw [rootP_of_root hz, hpqdef, pget_set_ne hzy]
      exact hz
    | succ k ihk =>
      intro z hz
      by_cases hzfix : pget p z = z
      · have hzy : z ≠ y := fun h => hnr (h ▸ hzfix)
        refine ⟨⟨0, (iterP_zero p' z).trans (rootP_of_root hzfix).symm⟩, ?_⟩
        rw [rootP_of_root hzfix, hpqdef, pget_set_ne hzy]
        exact hzfix
      · by_cases hzy : z = y
        · subst hzy
          refine ⟨⟨1, ?_⟩, hrfix'⟩
          rw [iterP_succ', iterP_zero, hpqdef, pget_set_self hy]
        · have hw : pget p' z = pget p z := by rw [hpqdef, pget_set_ne hzy]
          have hwz : pget p (iterP p k (pget p z)) = iterP p k (pget p z) := by
            rw [← iterP_succ]
            exact hz
          have := ihk (pget p z) hwz
          rw [rootP_step hwf z] at this
          exact reachF_step hw this
  have hreach' : ∀ z, ReachF p' z (rootP p z) := by
    intro z
    obtain ⟨k, hk⟩ := hwf.2 z
    exact hreach k z hk
  have hwf' : WFp p' := by
    constructor
    · intro w hw
      rw [hlen] at hw ⊢
      by_cases hwy : w = y
      · subst hwy
        rw [hpqdef, pget_set_self hy]
        exact rootP_lt hwf hy
      · rw [hpqdef, pget_set_ne hwy]
        exact hwf.1 w hw
    · exact fun z => reachF_terminates (hreach' z)
  exact ⟨hwf', fun z => rootP_eq_of_reachF hwf' (hreach' z)⟩

/-- Linking one root under another merges exactly the two classes. -/
theorem link_spec {p : List Nat} (hwf : WFp p) {y t : Nat}
    (hy : y < p.length) (ht : t < p.length) (hyr : pget p y = y)
    (htr : pget p t = t) (hty : t ≠ y) :
    WFp (p.set y t) ∧
      ∀ z, rootP (p.set y t) z = if rootP p z = y then t else rootP p z := by
  set p' := p.set y t with hpqdef
  have hlen : p'.length = p.length := by rw [hpqdef, List.length_set]
  have htfix' : pget p' t = t := by rw [hpqdef, pget_set_ne hty]; exact htr
  have hreach : ∀ k z, pget p (iterP p k z) = iterP p k z →
      ReachF p' z (if rootP p z = y then t else rootP p z) := by
    intro k
    induction k with
    | zero =>
      intro z hz
      rw [iterP_zero] at hz
      by_cases hzy : z = y
      · subst hzy
        rw [if_pos (rootP_of_root hz)]
        refine ⟨⟨1, ?_⟩, htfix'⟩
        rw [iterP_succ', iterP_zero, hpqdef, pget_set_self hy]
      · rw [rootP_of_root hz, if_neg hzy]
        refine ⟨⟨0, iterP_zero p' z⟩, ?_⟩
        rw [hpqdef, pget_set_ne hzy]
        exact hz
    | succ k ihk =>
      intro z hz
      by_cases hzfix : pget p z = z
      · by_cases hzy : z = y
        · subst hzy
          rw [if_pos (rootP_of_root hzfix)]
          refine ⟨⟨1, ?_⟩, htfix'⟩
          rw [iterP_succ', iterP_zero, hpqdef, pget_set_self hy]
        · rw [rootP_of_root hzfix, if_neg hzy]
          refine ⟨⟨0, iterP_zero p' z⟩, ?_⟩
          rw [hpqdef, pget_set_ne hzy]
          exact hzfix
      · have hzy : z ≠ y := fun h => hzfix (h ▸ hyr)
        have hw : pget p' z = pget p z := by rw [hpqdef, pget_set_ne hzy]
        have hwz : pget p (iterP p k (pget p z)) = iterP p k (pget p z) := by
          rw [← iterP_succ]
          exact hz
        have := ihk (pget p z) hwz
        rw [rootP_step hwf z] at this
        exact reachF_step hw this
  have hreach' : ∀ z, ReachF p' z (if rootP p z = y then t else rootP p z) := by
    intro z
    obtain ⟨k, hk⟩ := hwf.2 z
    exact hreach k z hk
  have hwf' : WFp p' := by
    constructor
    · intro w hw
      rw [hlen] at hw ⊢
      by_cases hwy : w = y
      · subst hwy
        rw [hpqdef, pget_set_self hy]
        exact ht
      · rw [hpqdef, pget_set_ne hwy]
        exact hwf.1 w hw
    · exact fun z => reachF_terminates (hreach' z)
  exact ⟨hwf', fun z => rootP_eq_of_reachF hwf' (hreach' z)⟩

/-- Full specification of `find` with path compression: given fuel
that reaches the root, it returns the root, keeps the parent array
well-formed with every root unchanged, redirects every node on the
search path to the root, and touches nothing else. -/
theorem findAux_spec : ∀ (fuel : Nat) (p : List Nat) (x : Nat), WFp p →
    pget p (iterP p fuel x) = iterP p fuel x →
    (findAux fuel p x).1 = rootP p x ∧
    (findAux fuel p x).2.length = p.length ∧
    WFp (findAux fuel p x).2 ∧
    (∀ z, rootP (findAux fuel p x).2 z = rootP p z) ∧
    (∀ k, iterP p k x ≠ rootP p x →
      pget (findAux fuel p x).2 (iterP p k x) = rootP p x) ∧
    (∀ y, (∀ k, iterP p k x ≠ y) → pget (findAux fuel p x).2 y = pget p y) := by
  intro fuel
  induction fuel with
  | zero =>
    intro p x hwf hfix
    rw [iterP_zero] at hfix
    have heq : findAux 0 p x = (pget p x, p) := rfl
    rw [heq]
    refine ⟨by rw [hfix, rootP_of_root hfix], rfl, hwf, fun z => rfl, ?_, fun y _ => rfl⟩
    intro k hk
    exact absurd (by
      rw [@iterP_eventually_const p x 0 hfix k (Nat.zero_le _), iterP_zero,
        rootP_of_root hfix]) hk
  | succ fuel ih =>
    intro p x hwf hfix
    by_cases hpx : pget p x = x
    · have heq : findAux (fuel + 1) p x = (x, p) := by
        simp [findAux, hpx]
      rw [heq]
      refine ⟨(rootP_of_root hpx).symm, rfl, hwf, fun z => rfl, ?_, fun y _ => rfl⟩
      intro k hk
      exact absurd (by
        rw [@iterP_eventually_const p x 0 hpx k (Nat.zero_le _), iterP_zero,
          rootP_of_root hpx]) hk
    · have hxlt : x < p.length := by
        by_contra hge
        exact hpx (pget_out (by omega))
      have hfix' : pget p (iterP p fuel (pget p x)) = iterP p fuel (pget p x) := by
        rw [← iterP_succ]
        exact hfix
      obtain ⟨ih1, ih2, ih3, ih4, ih5, ih6⟩ := ih p (pget p x) hwf hfix'
      set r₁ := (findAux fuel p (pget p x)).1 with hr₁def
      set p₁ := (findAux fuel p (pget p x)).2 with hp₁def
      have hrx : rootP p (pget p x) = rootP p x := rootP_step hwf x
      have hnc : ∀ k, iterP p k (pget p x) ≠ x := no_cycle hwf hpx
      have hp1x : pget p₁ x = pget p x := ih6 x hnc
      have hp1nr : pget p₁ x ≠ x := by rw [hp1x]; exact hpx
      have hroot₁x : rootP p₁ x = rootP p x := by
        have h1 : rootP p₁ (pget p₁ x) = rootP p₁ x := rootP_step ih3 x
        rw [hp1x] at h1
        rw [← h1, ih4, hrx]
      have hr₁x : r₁ = rootP p₁ x := by rw [ih1, hrx, hroot₁x]
      obtain ⟨hwf₂, hroots₂⟩ := @compress_spec p₁ ih3 x (by rw [ih2]; exact hxlt) hp1nr
      rw [← hr₁x] at hwf₂ hroots₂
      have heq : findAux (fuel + 1) p x = (pget (p₁.set x r₁) x, p₁.set x r₁) := by
        simp only [findAux, if_neg hpx]
      have hx₁lt : x < p₁.length := by rw [ih2]; exact hxlt
      have hp₂x : pget (p₁.set x r₁) x = r₁ := pget_set_self hx₁lt r₁
      rw [heq]
      refine ⟨by rw [hp₂x, ih1, hrx], by rw [List.length_set, ih2], hwf₂, ?_, ?_, ?_⟩
      · intro z
        rw [hroots₂ z, ih4 z]
      · intro k hk
        cases k with
        | zero =>
          rw [iterP_zero, hp₂x, ih1, hrx]
        | succ m =>
          rw [iterP_succ] at hk ⊢
          have hwne : iterP p m (pget p x) ≠ x := hnc m
          rw [pget_set_ne hwne]
          rw [← hrx] at hk
          rw [ih5 m hk, hrx]
      · intro y hy
        have hyx : y ≠ x := fun h => hy 0 (by rw [iterP_zero]; exact h.symm)
        rw [pget_set_ne hyx]
        refine ih6 y ?_
        intro k
        have := hy (k + 1)
        rw [iterP_succ] at this
        exact this

/-- Well-formed union-find object over `n` elements. -/
def WFuf (n : Nat) (u : UF) : Prop := u.parent.length = n ∧ WFp u.parent

/-- `find` on the object: returns the root, preserves well-formedness,
every root, and compresses the whole search path. -/
theorem find_spec {n : Nat} {u : UF} (h : WFuf n u) (x : Nat) :
    (u.find x).1 = rootP u.parent x ∧
    WFuf n (u.find x).2 ∧
    (∀ z, rootP (u.find x).2.parent z = rootP u.parent z) ∧
    (∀ k, iterP u.parent k x ≠ rootP u.parent x →
      pget (u.find x).2.parent (iterP u.parent k x) = rootP u.parent x) ∧
    (u.find x).2.rank = u.rank := by
  obtain ⟨hlen, hwf⟩ := h
  have hfix : pget u.parent (iterP u.parent u.parent.length x) =
      iterP u.parent u.parent.length x := rootP_fix hwf x
  obtain ⟨f1, f2, f3, f4, f5, _⟩ :=
    findAux_spec u.parent.length u.parent x hwf hfix
  exact ⟨f1, ⟨by rw [show (u.find x).2.parent = (findAux u.parent.length u.parent x).2
      from rfl, f2, hlen], f3⟩, f4, f5, rfl⟩

/-- `union` on the object: preserves well-formedness; the two argument
classes merge into one surviving root and every other class is
untouched. -/
theorem union_spec {n : Nat} {u : UF} (h : WFuf n u) {x y : Nat}
    (hx : x < n) (hy : y < n) :
    WFuf n (u.union x y).2 ∧
    ∃ R, (R = rootP u.parent x ∨ R = rootP u.parent y) ∧
      ∀ z, rootP (u.union x y).2.parent z =
        if rootP u.parent z = rootP u.parent x ∨ rootP u.parent z = rootP u.parent y
        then R else rootP u.parent z := by
  obtain ⟨fx1, fx2, fx3, _, fx5⟩ := find_spec h x
  obtain ⟨fy1, fy2, fy3, _, fy5⟩ := find_spec fx2 y
  have hpx : (u.find x).1 = rootP u.parent x := fx1
  have hpy : ((u.find x).2.find y).1 = rootP u.parent y := by rw [fy1, fx3]
  have hroots₂ : ∀ z, rootP ((u.find x).2.find y).2.parent z = rootP u.parent z := by
    intro z
    rw [fy3, fx3]
  have hlen₂ : ((u.find x).2.find y).2.parent.length = n := fy2.1
  have hwf₂ : WFp ((u.find x).2.find y).2.parent := fy2.2
  have hRx_idem : rootP u.parent (rootP u.parent x) = rootP u.parent x :=
    rootP_of_root (rootP_fix h.2 x)
  have hRy_idem : rootP u.parent (rootP u.parent y) = rootP u.parent y :=
    rootP_of_root (rootP_fix h.2 y)
  have hpxfix : pget ((u.find x).2.find y).2.parent (rootP u.parent x) =
      rootP u.parent x := by
    have hfix := rootP_fix hwf₂ (rootP u.parent x)
    rwa [hroots₂, hRx_idem] at hfix
  have hpyfix : pget ((u.find x).2.find y).2.parent (rootP u.parent y) =
      rootP u.parent y := by
    have hfix := rootP_fix hwf₂ (rootP u.parent y)
    rwa [hroots₂, hRy_idem] at hfix
  have hpxlt : rootP u.parent x < n := by
    have := rootP_lt h.2 (by rw [h.1]; exact hx)
    rwa [h.1] at this
  have hpylt : rootP u.parent y < n := by
    have := rootP_lt h.2 (by rw [h.1]; exact hy)
    rwa [h.1] at this
  by_cases hpp : (u.find x).1 = ((u.find x).2.find y).1
  · have hueq : u.union x y = (false, ((u.find x).2.find y).2) := by
      simp only [UF.union]
      rw [if_pos hpp]
    rw [hueq]
    have hrr : rootP u.parent x = rootP u.parent y := by rw [← hpx, ← hpy, hpp]
    refine ⟨fy2, rootP u.parent x, Or.inl rfl, ?_⟩
    intro z
    rw [hroots₂ z]
    by_cases hz : rootP u.parent z = rootP u.parent x ∨
        rootP u.parent z = rootP u.parent y
    · rw [if_pos hz]
      rcases hz with hz | hz
      · exact hz
      · rw [hz, hrr]
    · rw [if_neg hz]
  · have hne : rootP u.parent x ≠ rootP u.parent y := by
      rw [← hpx, ← hpy]
      exact hpp
    by_cases hr1 : rget ((u.find x).2.find y).2.rank (u.find x).1 <
        rget ((u.find x).2.find y).2.rank ((u.find x).2.find y).1
    · -- attach px under py
      have hueq : (u.union x y).2 =
          ⟨((u.find x).2.find y).2.parent.set (u.find x).1 ((u.find x).2.find y).1,
            ((u.find x).2.find y).2.rank⟩ := by
        simp only [UF.union]
        rw [if_neg hpp, if_pos hr1]
      rw [hueq, hpx, hpy]
      obtain ⟨hwf₃, hform⟩ := @link_spec ((u.find x).2.find y).2.parent hwf₂
        (rootP u.parent x) (rootP u.parent y)
        (by rw [hlen₂]; exact hpxlt) (by rw [hlen₂]; exact hpylt)
        hpxfix hpyfix (Ne.symm hne)
      refine ⟨⟨by rw [List.length_set]; exact hlen₂, hwf₃⟩,
        rootP u.parent y, Or.inr rfl, ?_⟩
      intro z
      rw [hform z, hroots₂ z]
      by_cases hzx : rootP u.parent z = rootP u.parent x
      · rw [if_pos hzx, if_pos (Or.inl hzx)]
      · rw [if_neg hzx]
        by_cases hzy : rootP u.parent z = rootP u.parent y
        · rw [if_pos (Or.inr hzy)]
          exact hzy
        · rw [if_neg (by rintro (h1 | h2); exact hzx h1; exact hzy h2)]
    · by_cases hr2 : rget ((u.find x).2.find y).2.rank ((u.find x).2.find y).1 <
          rget ((u.find x).2.find y).2.rank (u.find x).1
      · -- attach py under px
        have hueq : (u.union x y).2 =
            ⟨((u.find x).2.find y).2.parent.set ((u.find x).2.find y).1 (u.find x).1,
              ((u.find x).2.find y).2.rank⟩ := by
          simp only [UF.union]
          rw [if_neg hpp, if_neg hr1, if_pos hr2]
        rw [hueq, hpx, hpy]
        obtain ⟨hwf₃, hform⟩ := @link_spec ((u.find x).2.find y).2.parent hwf₂
          (rootP u.parent y) (rootP u.parent x)
          (by rw [hlen₂]; exact hpylt) (by rw [hlen₂]; exact hpxlt)
          hpyfix hpxfix hne
        refine ⟨⟨by rw [List.length_set]; exact hlen₂, hwf₃⟩,
          rootP u.parent x, Or.inl rfl, ?_⟩
        intro z
        rw [hform z, hroots₂ z]
        by_cases hzy : rootP u.parent z = rootP u.parent y
        · rw [if_pos hzy, if_pos (Or.inr hzy)]
        · rw [if_neg hzy]
          by_cases hzx : rootP u.parent z = rootP u.parent x
          · rw [if_pos (Or.inl hzx)]
            exact hzx
          · rw [if_neg (by rintro (h1 | h2); exact hzx h1; exact hzy h2)]
      · -- equal ranks: attach py under px and bump px's rank
        have hueq : (u.union x y).2 =
            ⟨((u.find x).2.find y).2.parent.set ((u.find x).2.find y).1 (u.find x).1,
              ((u.find x).2.find y).2.rank.set (u.find x).1
                (rget ((u.find x).2.find y).2.rank (u.find x).1 + 1)⟩ := by
          simp only [UF.union]
          rw [if_neg hpp, if_neg hr1, if_neg hr2]
        rw [hueq, hpx, hpy]
        obtain ⟨hwf₃, hform⟩ := @link_spec ((u.find x).2.find y).2.parent hwf₂
          (rootP u.parent y) (rootP u.parent x)
          (by rw [hlen₂]; exact hpylt) (by rw [hlen₂]; exact hpxlt)
          hpyfix hpxfix hne
        refine ⟨⟨by rw [List.length_set]; exact hlen₂, hwf₃⟩,
          rootP u.parent x, Or.inl rfl, ?_⟩
        intro z
        rw [hform z, hroots₂ z]
        by_cases hzy : rootP u.parent z = rootP u.parent y
        · rw [if_pos hzy, if_pos (Or.inr hzy)]
        · rw [if_neg hzy]
          by_cases hzx : rootP u.parent z = rootP u.parent x
          · rw [if_pos (Or.inl hzx)]
            exact hzx
          · rw [if_neg (by rintro (h1 | h2); exact hzx h1; exact hzy h2)]

/-- The initial object is well-formed: everyone is their own root. -/
theorem wf_ufInit (n : Nat) : WFuf n (ufInit n) := by
  have hget : ∀ x, pget (List.range n) x = x := by
    intro x
    by_cases hx : x < n
    · rw [pget, List.getD_eq_getElem _ _ (by simpa using hx)]
      simp
    · exact pget_out (by simpa using le_of_not_lt hx)
  refine ⟨by simp [ufInit], ?_, ?_⟩
  · intro y hy
    show pget (List.range n) y < (List.range n).length
    rw [hget]
    exact hy
  · intro x
    refine ⟨0, ?_⟩
    rw [iterP_zero]
    exact hget x

/-- Every reachable union-find state is well-formed. -/
theorem ufreach_wf {n : Nat} {u : UF} (h : UFReach n u) : WFuf n u := by
  induction h with
  | init => exact wf_ufInit n
  | find x hr hx ih => exact (find_spec ih x).2.1
  | union x y hr hx hy ih => exact (union_spec ih hx hy).1

/-- In the initial object every id is its own root. -/
theorem rootP_ufInit (n z : Nat) : rootP (ufInit n).parent z = z := by
  refine rootP_of_root ?_
  by_cases hz : z < n
  · rw [show (ufInit n).parent = List.range n from rfl, pget,
      List.getD_eq_getElem _ _ (by simpa using hz)]
    simp
  · exact pget_out (by simp [ufInit]; omega)

/-- The equivalence closure is a closure operator: generators mapping
into a closure stay inside it. -/
theorem eqvGen_bind {α : Type} {r s : α → α → Prop}
    (h : ∀ a b, r a b → Relation.EqvGen s a b) {a b : α}
    (hr : Relation.EqvGen r a b) : Relation.EqvGen s a b := by
  induction hr with
  | rel x y hxy => exact h x y hxy
  | refl x => exact .refl x
  | symm x y _ ih => exact .symm x y ih
  | trans x y z _ _ ih₁ ih₂ => exact .trans x y z ih₁ ih₂

/-- Running a batch of unions: the final same-root relation is the
equivalence closure of the initial same-root relation together with
the unioned pairs. -/
theorem applyUnions_spec {n : Nat} : ∀ (ops : List (Nat × Nat)) (u : UF),
    WFuf n u → (∀ op ∈ ops, op.1 < n ∧ op.2 < n) →
    WFuf n (applyUnions ops u) ∧
    ∀ z w, rootP (applyUnions ops u).parent z = rootP (applyUnions ops u).parent w ↔
      Relation.EqvGen
        (fun a b => rootP u.parent a = rootP u.parent b ∨ (a, b) ∈ ops) z w := by
  intro ops
  induction ops with
  | nil =>
    intro u hwf _
    refine ⟨hwf, ?_⟩
    intro z w
    constructor
    · intro h
      exact .rel z w (Or.inl h)
    · intro h
      have hEqv : Equivalence (fun a b : Nat =>
          rootP u.parent a = rootP u.parent b) :=
        ⟨fun _ => rfl, fun h => h.symm, fun h₁ h₂ => h₁.trans h₂⟩
      refine (Equivalence.eqvGen_iff hEqv).mp ?_
      refine eqvGen_bind ?_ h
      intro a b hab
      rcases hab with hab | hab
      · exact .rel a b hab
      · simp at hab
  | cons op ops ih =>
    intro u hwf hvalid
    obtain ⟨x, y⟩ := op
    have hx : x < n := (hvalid (x, y) (by simp)).1
    have hy : y < n := (hvalid (x, y) (by simp)).2
    obtain ⟨hwf₁, R, hRor, hform⟩ := union_spec hwf hx hy
    obtain ⟨ihwf, ihiff⟩ := ih (u.union x y).2 hwf₁
      (fun op hop => hvalid op (List.mem_cons_of_mem _ hop))
    have heq : applyUnions ((x, y) :: ops) u = applyUnions ops (u.union x y).2 := rfl
    rw [heq]
    refine ⟨ihwf, ?_⟩
    intro z w
    rw [ihiff z w]
    have hmerge : ∀ a b, (rootP (u.union x y).2.parent a =
        rootP (u.union x y).2.parent b) ↔
        (rootP u.parent a = rootP u.parent b ∨
          (rootP u.parent a = rootP u.parent x ∧
            rootP u.parent y = rootP u.parent b) ∨
          (rootP u.parent a = rootP u.parent y ∧
            rootP u.parent x = rootP u.parent b)) := by
      intro a b
      rw [hform a, hform b]
      split_ifs <;> omega
    constructor
    · refine eqvGen_bind ?_
      intro a b hab
      rcases hab with hab | hab
      · rcases (hmerge a b).mp hab with h | ⟨h1, h2⟩ | ⟨h1, h2⟩
        · exact .rel a b (Or.inl h)
        · refine .trans a x b (.rel a x (Or.inl h1)) ?_
          refine .trans x y b (.rel x y (Or.inr (by simp))) ?_
          exact .rel y b (Or.inl h2)
        · refine .trans a y b (.rel a y (Or.inl h1)) ?_
          refine .trans y x b (.symm x y (.rel x y (Or.inr (by simp)))) ?_
          exact .rel x b (Or.inl h2)
      · exact .rel a b (Or.inr (List.mem_cons_of_mem _ hab))
    · refine eqvGen_bind ?_
      intro a b hab
      rcases hab with hab | hab
      · exact .rel a b (Or.inl ((hmerge a b).mpr (Or.inl hab)))
      · rcases List.mem_cons.mp hab with heqab | hab
        · simp only [Prod.mk.injEq] at heqab
          obtain ⟨rfl, rfl⟩ := heqab
          exact .rel a b (Or.inl ((hmerge a b).mpr (Or.inr (Or.inl ⟨rfl, rfl⟩))))
        · exact .rel a b (Or.inr hab)

/-- C1: values pushed into a `MinHeap` come back out of successive
`pop()` calls in non-decreasing order (a sorted permutation of the
pushed values); `heap_sort` (heapify then pop `len` times) likewise
returns a sorted permutation, and on `[5,3,8,1]` the four pops return
`1, 3, 5, 8`. -/
theorem C1_pops_sorted (vs : List Int) :
    (popAll (MinHeap.pushAll vs)).Sorted (· ≤ ·) ∧
      (popAll (MinHeap.pushAll vs)).Perm vs ∧
      (heap_sort vs).Sorted (· ≤ ·) ∧
      (heap_sort vs).Perm vs ∧
      heap_sort [5, 3, 8, 1] = [1, 3, 5, 8] := by
  obtain ⟨hheap, hperm⟩ := pushAll_spec vs
  obtain ⟨hsorted, hperm'⟩ :=
    popAllF_spec (MinHeap.pushAll vs).length (MinHeap.pushAll vs) rfl hheap
  obtain ⟨hfheap, hfperm, hflen⟩ := heapify_spec vs
  have hlen : (heapify vs).length = vs.length := hflen
  obtain ⟨hssorted, hsperm⟩ := popAllF_spec vs.length (heapify vs) hlen hfheap
  exact ⟨hsorted, hperm'.trans hperm, hssorted, hsperm.trans hfperm, by decide⟩

/-- C3: after any sequence of `union` calls on elements of `{0..n-1}`,
`find(a) == find(b)` holds exactly when `a` and `b` are connected by
the equivalence (symmetric-transitive) closure of the unioned pairs. -/
theorem C3_find_iff_connected (n : Nat) (ops : List (Nat × Nat)) (a b : Nat)
    (hvalid : ∀ op ∈ ops, op.1 < n ∧ op.2 < n) (ha : a < n) (hb : b < n) :
    (((applyUnions ops (ufInit n)).find a).1 =
      (((applyUnions ops (ufInit n)).find a).2.find b).1) ↔
    Relation.EqvGen (fun i j => (i, j) ∈ ops) a b := by
  obtain ⟨hwfs, hiff⟩ := applyUnions_spec ops (ufInit n) (wf_ufInit n) hvalid
  obtain ⟨fa1, fa2, fa3, _, _⟩ := find_spec hwfs a
  obtain ⟨fb1, _, _, _, _⟩ := find_spec fa2 b
  have hfb : (((applyUnions ops (ufInit n)).find a).2.find b).1 =
      rootP (applyUnions ops (ufInit n)).parent b := by rw [fb1, fa3]
  rw [fa1, hfb, hiff a b]
  constructor
  · refine eqvGen_bind ?_
    intro i j hij
    rcases hij with hij | hij
    · rw [rootP_ufInit, rootP_ufInit] at hij
      exact hij ▸ .refl i
    · exact .rel i j hij
  · refine eqvGen_bind ?_
    intro i j hij
    exact .rel i j (Or.inr hij)

/-- C3 witness: with elements `{0..4}` and unions `(0,1)`, `(1,2)`,
`find(0) == find(2)` holds (they are connected through `1`) and
`find(0) == find(3)` fails, so `0` and `3` are not connected. -/
theorem C3_witness :
    (∀ op ∈ [((0 : Nat), (1 : Nat)), (1, 2)], op.1 < 5 ∧ op.2 < 5) ∧
    (((applyUnions [(0, 1), (1, 2)] (ufInit 5)).find 0).1 =
      (((applyUnions [(0, 1), (1, 2)] (ufInit 5)).find 0).2.find 2).1) ∧
    ¬ (((applyUnions [(0, 1), (1, 2)] (ufInit 5)).find 0).1 =
      (((applyUnions [(0, 1), (1, 2)] (ufInit 5)).find 0).2.find 3).1) ∧
    ¬ Relation.EqvGen (fun i j => (i, j) ∈ [((0 : Nat), (1 : Nat)), (1, 2)]) 0 3 := by
  refine ⟨by decide, ?_, by decide, ?_⟩
  · refine (C3_find_iff_connected 5 [(0, 1), (1, 2)] 0 2 (by decide) (by decide)
      (by decide)).mpr ?_
    exact .trans 0 1 2 (.rel 0 1 (by decide)) (.rel 1 2 (by decide))
  · intro hE
    exact absurd ((C3_find_iff_connected 5 [(0, 1), (1, 2)] 0 3 (by decide) (by decide)
      (by decide)).mpr hE) (by decide)

/-- C8: in every reachable union-find state, following parent links
from a valid id reaches a root (a fixed point of the parent map);
`find` returns that root, redirects every node on the walked path
directly to it (full path compression), and leaves every element's
root — hence the partition — unchanged. -/
theorem C8_find_compresses_preserving_roots (n : Nat) (u : UF)
    (hreach : UFReach n u) (x : Nat) (hx : x < n) :
    (∃ k, iterP u.parent k x = rootP u.parent x) ∧
    pget u.parent (rootP u.parent x) = rootP u.parent x ∧
    (u.find x).1 = rootP u.parent x ∧
    (∀ k, iterP u.parent k x ≠ rootP u.parent x →
      pget (u.find x).2.parent (iterP u.parent k x) = rootP u.parent x) ∧
    (∀ z, rootP (u.find x).2.parent z = rootP u.parent z) := by
  have hwf := ufreach_wf hreach
  obtain ⟨f1, _, f3, f4, _⟩ := find_spec hwf x
  exact ⟨⟨u.parent.length, rfl⟩, rootP_fix hwf.2 x, f1, f4, f3⟩

/-- C8 witness: the state after `UnionFind(3)` and `union(0,1)` is
reachable; `find(0)` returns `0`'s root and preserves all roots. -/
theorem C8_witness :
    (0 : Nat) < 3 ∧
    ((((ufInit 3).union 0 1).2.find 0).1 =
      rootP ((ufInit 3).union 0 1).2.parent 0) ∧
    pget ((ufInit 3).union 0 1).2.parent (rootP ((ufInit 3).union 0 1).2.parent 0) =
      rootP ((ufInit 3).union 0 1).2.parent 0 := by
  have hreach : UFReach 3 (((ufInit 3).union 0 1).2) :=
    .union 0 1 .init (by decide) (by decide)
  have h := C8_find_compresses_preserving_roots 3 (((ufInit 3).union 0 1).2)
    hreach 0 (by decide)
  exact ⟨by decide, h.2.2.1, h.2.1⟩

/-- C2 counterexample: the claim quantifies over every sequence
containing `v`; for the sequence `[5, 5]` (which contains `v = 5`),
after `delete_node` the value `5` is still found, because only one of
the two duplicate nodes is removed. -/
theorem C2_counterexample :
    (5 : Int) ∈ [(5 : Int), 5] ∧
      search_bst (delete_node (buildBST [5, 5]) 5) 5 = true := by
  decide

/-- C2 (amended: the deleted value must occur exactly once in the
inserted sequence): deleting `v` from the BST built from `vs` makes
`search_bst v` false while every other inserted value is still found;
and in the two-children case `delete_node` replaces the node's value
with the minimum of its right subtree (its leftmost value) and deletes
that value from the right subtree. -/
theorem C2_delete_found_value (vs : List Int) (v : Int)
    (hv : vs.count v = 1) :
    search_bst (delete_node (buildBST vs) v) v = false ∧
    (∀ w ∈ vs, w ≠ v → search_bst (delete_node (buildBST vs) v) w = true) ∧
    (∀ (x : Int) (l r : Tree), l ≠ .leaf → r ≠ .leaf →
      delete_node (.node x l r) x =
        .node (leftmostVal r) l (delete_node r (leftmostVal r)) ∧
      (Tree.isBST (.node x l r) = true →
        leftmostVal r ∈ r.toList ∧ ∀ y ∈ r.toList, leftmostVal r ≤ y)) := by
  have hbst := isBST_build vs
  have hperm := toList_build vs
  have hcount : (buildBST vs).toList.count v = 1 := by
    rw [hperm.count_eq]; exact hv
  have hmem : v ∈ (buildBST vs).toList := by
    rw [← List.count_pos_iff, hcount]; exact Nat.one_pos
  have hdperm := toList_delete (buildBST vs) v hbst hmem
  have hdbst := isBST_delete (buildBST vs) v hbst
  refine ⟨?_, ?_, ?_⟩
  · have hzero : (delete_node (buildBST vs) v).toList.count v = 0 := by
      rw [hdperm.count_eq, List.count_erase_self, hcount]
    rw [← Bool.not_eq_true, search_iff_mem hdbst]
    exact List.count_eq_zero.mp hzero
  · intro w hw hne
    have hwm : w ∈ (buildBST vs).toList := hperm.mem_iff.mpr hw
    have : w ∈ (delete_node (buildBST vs) v).toList := by
      rw [hdperm.mem_iff, List.mem_erase_of_ne hne]
      exact hwm
    rw [search_iff_mem hdbst]
    exact this
  · rintro x (_ | ⟨lv, la, lb⟩) (_ | ⟨rv, ra, rb⟩) hlne hrne
    · exact absurd rfl hlne
    · exact absurd rfl hlne
    · exact absurd rfl hrne
    · refine ⟨by simp [delete_node], fun hb => ?_⟩
      rcases isBST_node.mp hb with ⟨_, _, _, br⟩
      exact ⟨leftmost_mem (by simp), leftmost_le br (by simp)⟩

/-- C2 witness: the amended theorem applied to the sequence `[5, 3, 8]`
(in which `3` occurs exactly once). -/
theorem C2_witness :
    ([5, 3, 8] : List Int).count 3 = 1 ∧
      search_bst (delete_node (buildBST [5, 3, 8]) 3) 3 = false ∧
      search_bst (delete_node (buildBST [5, 3, 8]) 3) 5 = true := by
  refine ⟨by decide, (C2_delete_found_value [5, 3, 8] 3 (by decide)).1, ?_⟩
  exact (C2_delete_found_value [5, 3, 8] 3 (by decide)).2.1 5 (by decide) (by decide)

/-- C4: the tree built by folding `insert_bst` over any sequence of
values satisfies the BST ordering invariant (left subtree strictly
smaller, right subtree greater or equal, at every node), and its
in-order traversal is a non-decreasing permutation of the inserted
values. -/
theorem C4_bst_invariant_inorder_sorted (vs : List Int) :
    (buildBST vs).isBST = true ∧
      (buildBST vs).toList.Sorted (· ≤ ·) ∧
      (buildBST vs).toList.Perm vs :=
  ⟨isBST_build vs, sorted_toList (isBST_build vs), toList_build vs⟩

/-- C7: inserting a value equal to a node's value descends into the
right subtree and leaves the left subtree untouched (duplicates go
right, never left); inserting into an empty tree returns the new node,
inserting into a nonempty tree returns the tree with the same root
value (so callers can rebind the subtree root), and the inserted value
is added to the tree's contents. -/
theorem C7_duplicate_policy (v x : Int) (l r : Tree) :
    insert_bst (.node v l r) v = .node v l (insert_bst r v) ∧
      insert_bst .leaf v = .node v .leaf .leaf ∧
      (∃ l' r', insert_bst (.node x l r) v = .node x l' r') ∧
      (insert_bst (.node v l r) v).toList.Perm (v :: (Tree.node v l r).toList) := by
  refine ⟨by simp [insert_bst], rfl, ?_, toList_insert _ _⟩
  by_cases h : v < x
  · exact ⟨insert_bst l v, r, by simp [insert_bst, h]⟩
  · exact ⟨l, insert_bst r v, by simp [insert_bst, h]⟩

/-- C9: reversing a singly linked list twice restores the original
sequence of values, as read off by `to_list` traversal. -/
theorem C9_reverse_involutive (l : List Int) :
    to_list (reverse_list (reverse_list l)) = to_list l := by
  simp [reverse_list, reverseLoop_eq, to_list_id]

/-- C10: deleting an absent key from a BST leaves the in-order value
sequence unchanged. -/
theorem C10_delete_absent_noop (t : Tree) (k : Int)
    (hb : t.isBST = true) (hk : k ∉ t.toList) :
    (delete_node t k).toList = t.toList := by
  rw [delete_not_mem t k hk]

/-- C10 witness: deleting the absent key `4` from the BST built from
`[5, 3, 8]` is a no-op. -/
theorem C10_witness :
    (buildBST [5, 3, 8]).isBST = true ∧
      (4 : Int) ∉ (buildBST [5, 3, 8]).toList ∧
      (delete_node (buildBST [5, 3, 8]) 4).toList = (buildBST [5, 3, 8]).toList :=
  ⟨by decide, by decide, C10_delete_absent_noop _ 4 (by decide) (by decide)⟩

/-- C5: popping the empty `MinHeap` raises (`IndexError` from
`self.heap[0]`, modelled as `Except.error`), popping the empty `Stack`
raises (`IndexError` from `list.pop()`), and peeking the empty `Stack`
returns `None`, which is not a value of the data domain. -/
theorem C5_empty_pop_peek_report_errors :
    MinHeap.pop [] = .error () ∧ Stack.pop [] = .error () ∧
      Stack.peek [] = none ∧ ∀ v : Int, Stack.peek [] ≠ some v := by
  refine ⟨rfl, by simp [Stack.pop], by simp [Stack.peek], ?_⟩
  intro v
  simp [Stack.peek]

/-- C6: the code slip on the tail pointer.  After `insert_end(5)` the
list holds one node; `delete_val(5)` removes it but sets `self.tail`
to the sentinel `dummy` node (index 1) instead of `None`, so `head`
denotes the empty list while `tail` does not; a subsequent
`insert_end(7)` then links the new node behind the dangling dummy and
the list is corrupted: `head` is still `None` and `find(7)` fails. -/
theorem C6_tail_dangles_after_sole_delete :
    ((LinkedList.empty.insert_end 5).delete_val 5).head = none ∧
      ((LinkedList.empty.insert_end 5).delete_val 5).tail = some 1 ∧
      ((LinkedList.empty.insert_end 5).delete_val 5).tail ≠ none ∧
      (((LinkedList.empty.insert_end 5).delete_val 5).insert_end 7).head = none ∧
      (((LinkedList.empty.insert_end 5).delete_val 5).insert_end 7).find 7 = false := by
  decide

end DSNotes
